import Mathlib

/-!
# AUQS: a state-vector quantum-circuit simulator

Shallow embedding of `cmd/auqs/auqs.go`.

* Go slices are lists; the nil slice and the empty slice are both `[]`.
* A run-time panic is the `error` branch of `Except GoPanic`.
* `float64` is modelled in exact arithmetic: a value is either NaN or an exact real of
  the field `ℚ(√2)`, which holds every real and imaginary part the gate catalogue
  produces (`1/√2`, `cos (π/4)`, `sin (π/4)`).  NaN is kept because the CNOT
  construction relies on it.
* `int` is the 64-bit signed integer of the usual targets.  The length of a slice that
  exists is far below `2^63`, so lengths and products of lengths are natural numbers;
  the wrap-around is modelled where an integer is computed from a caller-supplied
  value (`1 << numQubits`).
* `make([]complex128, len)` of `NewQuantumRegister` carries the length check of the
  runtime's `makeslice`: it panics for a negative length and for a length whose 16-byte
  elements need more than `maxAlloc = 1 << 48` bytes.  An allocation that passes the
  check is taken to be served: running out of memory is not a panic and is not modelled.
-/

namespace AUQS

/-! ## Exact reals `r + s√2` -/

/-- Exact real number `r + s·√2` with rational `r` and `s` -/
@[ext] structure QSqrt2 where
  r : ℚ
  s : ℚ
deriving DecidableEq

namespace QSqrt2

instance : Zero QSqrt2 := ⟨⟨0, 0⟩⟩

instance : One QSqrt2 := ⟨⟨1, 0⟩⟩

instance : Add QSqrt2 := ⟨fun x y => ⟨x.r + y.r, x.s + y.s⟩⟩

instance : Neg QSqrt2 := ⟨fun x => ⟨-x.r, -x.s⟩⟩

instance : Sub QSqrt2 := ⟨fun x y => ⟨x.r - y.r, x.s - y.s⟩⟩

instance : Mul QSqrt2 := ⟨fun x y => ⟨x.r * y.r + 2 * (x.s * y.s), x.r * y.s + x.s * y.r⟩⟩

/-- Inverse of `r + s√2`: `(r - s√2) / (r² - 2 s²)`, and `0` for `0` -/
instance : Inv QSqrt2 :=
  ⟨fun x => ⟨x.r / (x.r * x.r - 2 * (x.s * x.s)), -x.s / (x.r * x.r - 2 * (x.s * x.s))⟩⟩

instance : Div QSqrt2 := ⟨fun x y => x * y⁻¹⟩

@[simp] theorem zero_r : (0 : QSqrt2).r = 0 := rfl

@[simp] theorem zero_s : (0 : QSqrt2).s = 0 := rfl

@[simp] theorem one_r : (1 : QSqrt2).r = 1 := rfl

@[simp] theorem one_s : (1 : QSqrt2).s = 0 := rfl

@[simp] theorem add_r (x y : QSqrt2) : (x + y).r = x.r + y.r := rfl

@[simp] theorem add_s (x y : QSqrt2) : (x + y).s = x.s + y.s := rfl

@[simp] theorem neg_r (x : QSqrt2) : (-x).r = -x.r := rfl

@[simp] theorem neg_s (x : QSqrt2) : (-x).s = -x.s := rfl

@[simp] theorem sub_r (x y : QSqrt2) : (x - y).r = x.r - y.r := rfl

@[simp] theorem sub_s (x y : QSqrt2) : (x - y).s = x.s - y.s := rfl

@[simp] theorem mul_r (x y : QSqrt2) : (x * y).r = x.r * y.r + 2 * (x.s * y.s) := rfl

@[simp] theorem mul_s (x y : QSqrt2) : (x * y).s = x.r * y.s + x.s * y.r := rfl

instance : CommRing QSqrt2 where
  add_assoc := by intro a b c; ext <;> simp only [add_r, add_s] <;> ring
  zero_add := by intro a; ext <;> simp only [add_r, add_s, zero_r, zero_s] <;> ring
  add_zero := by intro a; ext <;> simp only [add_r, add_s, zero_r, zero_s] <;> ring
  add_comm := by intro a b; ext <;> simp only [add_r, add_s] <;> ring
  nsmul := nsmulRec
  zsmul := zsmulRec
  neg_add_cancel := by
    intro a; ext <;> simp only [add_r, add_s, neg_r, neg_s, zero_r, zero_s] <;> ring
  sub_eq_add_neg := by
    intro a b; ext <;> simp only [add_r, add_s, neg_r, neg_s, sub_r, sub_s] <;> ring
  left_distrib := by intro a b c; ext <;> simp only [add_r, add_s, mul_r, mul_s] <;> ring
  right_distrib := by intro a b c; ext <;> simp only [add_r, add_s, mul_r, mul_s] <;> ring
  zero_mul := by intro a; ext <;> simp only [mul_r, mul_s, zero_r, zero_s] <;> ring
  mul_zero := by intro a; ext <;> simp only [mul_r, mul_s, zero_r, zero_s] <;> ring
  mul_assoc := by intro a b c; ext <;> simp only [mul_r, mul_s] <;> ring
  one_mul := by intro a; ext <;> simp only [mul_r, mul_s, one_r, one_s] <;> ring
  mul_one := by intro a; ext <;> simp only [mul_r, mul_s, one_r, one_s] <;> ring
  mul_comm := by intro a b; ext <;> simp only [mul_r, mul_s] <;> ring

/-- The number `√2` -/
def sqrtTwo : QSqrt2 := ⟨0, 1⟩

end QSqrt2

/-! ## `float64` and `complex128` in exact arithmetic -/

/-- A `float64` in exact arithmetic: NaN, or an exact real -/
inductive F64 where
  | nan : F64
  | fin : QSqrt2 → F64
deriving DecidableEq

namespace F64

instance : Zero F64 := ⟨fin 0⟩

instance : One F64 := ⟨fin 1⟩

/-- Float addition: NaN if an operand is NaN -/
def add : F64 → F64 → F64
  | fin x, fin y => fin (x + y)
  | _, _ => nan

/-- Float subtraction: NaN if an operand is NaN -/
def sub : F64 → F64 → F64
  | fin x, fin y => fin (x - y)
  | _, _ => nan

/-- Float multiplication: NaN if an operand is NaN, also when the other one is zero -/
def mul : F64 → F64 → F64
  | fin x, fin y => fin (x * y)
  | _, _ => nan

/-- Float negation -/
def neg : F64 → F64
  | fin x => fin (-x)
  | nan => nan

instance : Add F64 := ⟨add⟩

instance : Sub F64 := ⟨sub⟩

instance : Mul F64 := ⟨mul⟩

instance : Neg F64 := ⟨neg⟩

/-- Go `math.IsNaN` -/
def IsNaN : F64 → Bool
  | nan => true
  | fin _ => false

end F64

/-- Go `complex128`: a pair of floats -/
structure Complex128 where
  re : F64
  im : F64
deriving DecidableEq

namespace Complex128

instance : Zero Complex128 := ⟨⟨0, 0⟩⟩

instance : One Complex128 := ⟨⟨1, 0⟩⟩

/-- Complex addition, componentwise -/
def add (x y : Complex128) : Complex128 := ⟨x.re + y.re, x.im + y.im⟩

/-- Complex multiplication as the compiler emits it:
`(a+bi)(c+di) = (ac - bd) + (ad + bc)i` -/
def mul (x y : Complex128) : Complex128 :=
  ⟨x.re * y.re - x.im * y.im, x.re * y.im + x.im * y.re⟩

/-- Complex negation, componentwise -/
def neg (x : Complex128) : Complex128 := ⟨-x.re, -x.im⟩

instance : Add Complex128 := ⟨add⟩

instance : Mul Complex128 := ⟨mul⟩

instance : Neg Complex128 := ⟨neg⟩

/-- Go `cmplx.Conj` -/
def conj (x : Complex128) : Complex128 := ⟨x.re, -x.im⟩

/-- Exact value of `math.Pow(cmplx.Abs(z), 2)`: the squared magnitude `re² + im²` -/
def absSq (x : Complex128) : F64 := x.re * x.re + x.im * x.im

end Complex128

/-- The value `1 / math.Sqrt(2)` -/
def invSqrtTwo : F64 := F64.fin (1 / QSqrt2.sqrtTwo)

/-- The value `cmplx.Exp(g.i * math.Pi / 4)`, that is `cos (π/4) + i sin (π/4)`
with `cos (π/4) = sin (π/4) = √2/2` -/
def expIPiOver4 : Complex128 := ⟨F64.fin ⟨0, 1 / 2⟩, F64.fin ⟨0, 1 / 2⟩⟩

/-- The value `cmplx.Exp(-g.i * math.Pi / 4)`, that is `cos (π/4) - i sin (π/4)` -/
def expNegIPiOver4 : Complex128 := ⟨F64.fin ⟨0, 1 / 2⟩, F64.fin ⟨0, -(1 / 2)⟩⟩

/-! ## Panics, slices and matrices -/

/-- The run-time panics the program can raise -/
inductive GoPanic where
  | indexOutOfRange : GoPanic
  | makeLenOutOfRange : GoPanic
  | negativeShift : GoPanic
  | invalidIntnArgument : GoPanic
  | message : String → GoPanic
deriving DecidableEq

/-- A square matrix as Go stores it, `[][]complex128`: a slice of rows -/
abbrev Matrix := List (List Complex128)

/-- Slice indexing `xs[i]`: panics when `i` is out of range -/
def index {α : Type} (xs : List α) (i : Nat) : Except GoPanic α :=
  match xs[i]? with
  | some x => .ok x
  | none => .error .indexOutOfRange

/-! ## The gate catalogue -/

/-- The gate catalogue: the imaginary unit and the map from names to 2×2 matrices -/
structure Gates where
  i : Complex128
  singleQubitGates : List (String × Matrix)

/-- Map read `g.singleQubitGates[name]`: the nil slice for a missing key -/
def Gates.get (g : Gates) (name : String) : Matrix :=
  match g.singleQubitGates.lookup name with
  | some m => m
  | none => []

/-- Go `NewGates`: the nine single-qubit matrices -/
def NewGates : Gates :=
  let i : Complex128 := ⟨0, 1⟩
  let h : F64 := invSqrtTwo
  { i := i
    singleQubitGates :=
      [ ("X", [[⟨0, 0⟩, ⟨1, 0⟩], [⟨1, 0⟩, ⟨0, 0⟩]]),
        ("Y", [[⟨0, 0⟩, -i], [i, ⟨0, 0⟩]]),
        ("Z", [[⟨1, 0⟩, ⟨0, 0⟩], [⟨0, 0⟩, ⟨-1, 0⟩]]),
        ("H", [[⟨h, 0⟩, ⟨h, 0⟩], [⟨h, 0⟩, ⟨-h, 0⟩]]),
        ("Id", [[⟨1, 0⟩, ⟨0, 0⟩], [⟨0, 0⟩, ⟨1, 0⟩]]),
        ("S", [[⟨1, 0⟩, ⟨0, 0⟩], [⟨0, 0⟩, i]]),
        ("SDagger", [[⟨1, 0⟩, ⟨0, 0⟩], [⟨0, 0⟩, -i]]),
        ("T", [[⟨1, 0⟩, ⟨0, 0⟩], [⟨0, 0⟩, expIPiOver4]]),
        ("TDagger", [[⟨1, 0⟩, ⟨0, 0⟩], [⟨0, 0⟩, expNegIPiOver4]]) ] }

/-! ## Kronecker product and reduction -/

/-- Go `kron`: the `len(a)·len(b)` square matrix with
`result[i][j] = a[i / len(b)][j / len(b)] * b[i % len(b)][j % len(b)]` -/
def kron (a b : Matrix) : Except GoPanic Matrix :=
  let n := a.length * b.length
  (List.range n).mapM fun i =>
    (List.range n).mapM fun j => do
      let rowA := i / b.length
      let colA := j / b.length
      let rowB := i % b.length
      let colB := j % b.length
      let x ← index (← index a rowA) colA
      let y ← index (← index b rowB) colB
      pure (x * y)

/-- Go `reduce`: folds the list from the left with `kron`, one factor per call -/
def reduce : List Matrix → Except GoPanic Matrix
  | [] => .error .indexOutOfRange
  | [gate] => .ok gate
  | gate1 :: gate2 :: remaining =>
    match kron gate1 gate2 with
    | .error e => .error e
    | .ok result => reduce (result :: remaining)
termination_by gateOrder => gateOrder.length
decreasing_by simp

/-- Go `GenerateGate`: the full operator of a named gate on `numQubits` qubits -/
def GenerateGate (gate : String) (numQubits qubit1 qubit2 : Int) : Except GoPanic Matrix :=
  let g := NewGates
  if gate = "CNOT" then
    let control := qubit1
    let target := qubit2
    let identity := g.get "Id"
    let X := g.get "X"
    let C : Matrix := [[⟨F64.nan, 0⟩, ⟨0, 0⟩], [⟨0, 0⟩, ⟨1, 0⟩]]
    if numQubits < 0 then .error .makeLenOutOfRange
    else
      let gateOrder : List Matrix := (List.range numQubits.toNat).map fun (i : Nat) =>
        if (i : Int) = control then C
        else if (i : Int) = target then X
        else identity
      match reduce gateOrder with
      | .error e => .error e
      | .ok newGate =>
        let n := newGate.length
        (List.range n).mapM fun i =>
          (List.range n).mapM fun j => do
            let v ← index (← index newGate i) j
            if !F64.IsNaN v.re && !F64.IsNaN v.im then pure v
            else if i = j then pure ⟨1, 0⟩
            else pure ⟨0, 0⟩
  else
    let identity := g.get "Id"
    let mainGate := g.get gate
    if numQubits < 0 then .error .makeLenOutOfRange
    else
      let gateOrder : List Matrix := (List.range numQubits.toNat).map fun (i : Nat) =>
        if (i : Int) = qubit1 then mainGate
        else identity
      reduce gateOrder

/-- Go `matrixMultiply`: the row vector `a` times the matrix `b`,
`result[i] = Σ_j a[j] * b[j][i]`, summed from `complex(0, 0)` in increasing `j` -/
def matrixMultiply (a : List Complex128) (b : Matrix) : Except GoPanic (List Complex128) :=
  let n := b.length
  (List.range n).mapM fun i =>
    (List.range n).foldlM (fun (acc : Complex128) j => do
      let x ← index a j
      let y ← index (← index b j) i
      pure (acc + x * y)) ⟨0, 0⟩

/-! ## The quantum register -/

/-- Go `QuantumRegister`; the nil `probabilities` slice is `[]` -/
structure QuantumRegister where
  numQubits : Int
  amplitudes : List Complex128
  value : String
  probabilities : List F64
deriving DecidableEq

/-- The value a 64-bit `int` holds after an operation whose exact result is `x` -/
def wrapInt64 (x : Int) : Int := (x + 2 ^ 63) % 2 ^ 64 - 2 ^ 63

/-- Go `x << s` on `int`: panics for a negative count, wraps around otherwise -/
def shiftLeft (x s : Int) : Except GoPanic Int :=
  if s < 0 then .error .negativeShift else .ok (wrapInt64 (x * 2 ^ s.toNat))

/-- The runtime's `maxAlloc`, the largest allocation in bytes: `1 << 48` on the usual
64-bit targets -/
def maxAlloc : Int := 2 ^ 48

/-- Go `make([]complex128, len)`, the runtime's `makeslice` with element size 16: panics
`makeslice: len out of range` for a negative length and for a length whose `16 * len`
bytes overflow or exceed `maxAlloc` -/
def makeSlice (len : Int) : Except GoPanic (List Complex128) :=
  if len < 0 ∨ 16 * len > maxAlloc then .error .makeLenOutOfRange
  else .ok (List.replicate len.toNat ⟨0, 0⟩)

/-- Go `NewQuantumRegister`: the register in the basis state with amplitude 1 at index 0 -/
def NewQuantumRegister (numQubits : Int) : Except GoPanic QuantumRegister := do
  let len ← shiftLeft 1 numQubits
  let amplitudes ← makeSlice len
  let qr : QuantumRegister :=
    { numQubits := numQubits, amplitudes := amplitudes, value := "", probabilities := [] }
  if 0 < qr.amplitudes.length then
    pure { qr with amplitudes := qr.amplitudes.set 0 ⟨1, 0⟩ }
  else .error .indexOutOfRange

/-- Go `(*QuantumRegister).applyGate`: the outcome of the call and the register after it -/
def applyGate (gate : String) (qubit1 qubit2 : Int) (qr : QuantumRegister) :
    Except GoPanic Unit × QuantumRegister :=
  if qr.value ≠ "" then (.error (.message "Cannot Apply Gate to Measured Register"), qr)
  else
    match GenerateGate gate qr.numQubits qubit1 qubit2 with
    | .error e => (.error e, qr)
    | .ok gateMatrix =>
      match matrixMultiply qr.amplitudes gateMatrix with
      | .error e => (.error e, qr)
      | .ok amplitudes => (.ok (), { qr with amplitudes := amplitudes })

/-- The library call pair `rand.Seed(42); rand.Intn(n)`: the generator is reseeded before
every draw, so the index drawn is a function of the bound `n` alone, and it lies in
`[0, n)` -/
structure RandSource where
  next : Nat → Nat
  next_lt : ∀ n, 0 < n → next n < n

/-- Go `rand.Intn`: panics unless the bound is positive -/
def RandSource.Intn (rng : RandSource) (n : Nat) : Except GoPanic Nat :=
  if n = 0 then .error .invalidIntnArgument else .ok (rng.next n)

/-- The digit loop of `fmt` for base 2: digits are written from the least significant one
backwards, `for u >= 2 { buf[i] = digits[u&1]; u >>= 1 }; buf[i] = digits[u]` -/
def binaryDigits : Nat → Nat → List Char → List Char
  | 0, _, acc => acc
  | fuel + 1, u, acc =>
    if u < 2 then Nat.digitChar u :: acc
    else binaryDigits fuel (u / 2) (Nat.digitChar (u % 2) :: acc)

/-- Go `fmt.Sprintf("%0*b", width, index)` for an index that is not negative: the binary
digits, padded with zeros on the left up to `width`; a negative width means left
justification, padding with blanks on the right.  (`fmt` rejects widths beyond 10^6,
far beyond any register that can hold its `2^numQubits` amplitudes.) -/
def sprintfBinary (width : Int) (index : Nat) : String :=
  let digits := binaryDigits (index + 1) index []
  if width < 0 then String.mk (digits ++ List.replicate (width.natAbs - digits.length) ' ')
  else String.mk (List.replicate (width.toNat - digits.length) '0' ++ digits)

/-- Go `(*QuantumRegister).measure`: the outcome of the call and the register after it -/
def measure (rng : RandSource) (qr : QuantumRegister) :
    Except GoPanic String × QuantumRegister :=
  if qr.value ≠ "" then (.ok qr.value, qr)
  else
    let probabilities := qr.amplitudes.map fun amp => Complex128.absSq amp
    let qr := { qr with probabilities := probabilities }
    let results := List.range qr.probabilities.length
    match rng.Intn results.length with
    | .error e => (.error e, qr)
    | .ok index =>
      let value := sprintfBinary qr.numQubits index
      (.ok value, { qr with value := value })

/-! ## Auxiliary definitions for the specification -/

deriving instance DecidableEq for Except

/-- The `d × d` matrix with entries `f i j` -/
def toMat (d : Nat) (f : Nat → Nat → Complex128) : Matrix :=
  (List.range d).map fun i => (List.range d).map fun j => f i j

/-- Entry `m[i][j]` of a matrix, `0` outside it -/
def ent (m : Matrix) (i j : Nat) : Complex128 := (m.getD i []).getD j 0

/-- Bit `p` of `i`, as the number 0 or 1 -/
def bitAt (i p : Nat) : Nat := (i.testBit p).toNat

/-- Entries of the left fold of `m + 1` two-by-two factors `g 0, …, g m` -/
def foldEntries (g : Nat → Nat → Nat → Complex128) : Nat → Nat → Nat → Complex128
  | 0 => g 0
  | m + 1 => fun i j => foldEntries g m (i / 2) (j / 2) * g (m + 1) (i % 2) (j % 2)

/-- Left-nested product `((e 0 * e 1) * …) * e m` -/
def prodEntries (e : Nat → Complex128) : Nat → Complex128
  | 0 => e 0
  | m + 1 => prodEntries e m * e (m + 1)

/-- The test `!math.IsNaN(real(z)) && !math.IsNaN(imag(z))` -/
def Complex128.notNaN (z : Complex128) : Bool := !F64.IsNaN z.re && !F64.IsNaN z.im

/-- A matrix is a two-by-two table of numbers that are not NaN -/
def IsGate2 (G : Matrix) : Prop :=
  G = toMat 2 (ent G) ∧ ∀ a b : Bool, (ent G a.toNat b.toNat).notNaN = true

instance (G : Matrix) : Decidable (IsGate2 G) := by
  unfold IsGate2; infer_instance

/-- The catalogue's identity matrix -/
def idGate : Matrix := [[⟨1, 0⟩, ⟨0, 0⟩], [⟨0, 0⟩, ⟨1, 0⟩]]

/-- The catalogue's Pauli-X matrix -/
def xGate : Matrix := [[⟨0, 0⟩, ⟨1, 0⟩], [⟨1, 0⟩, ⟨0, 0⟩]]

/-- The control placeholder of the CNOT construction: NaN marks the unresolved entry -/
def cGate : Matrix := [[⟨F64.nan, 0⟩, ⟨0, 0⟩], [⟨0, 0⟩, ⟨1, 0⟩]]

/-- The names of the nine single-qubit gates of the catalogue -/
def singleQubitNames : List String := ["X", "Y", "Z", "H", "Id", "S", "SDagger", "T", "TDagger"]

/-- The operator `Id ⊗ … ⊗ G ⊗ … ⊗ Id` on `n` qubits with `G` at qubit `k`, qubit 0 the
most significant: entry `[i][j]` is `G[b_i][b_j]`, with `b` bit `n-1-k`, when `i` and `j`
agree on every other bit, and `0` otherwise -/
def singleQubitOperator (G : Matrix) (n k : Nat) : Matrix :=
  toMat (2 ^ n) fun i j =>
    if ∀ p, p < n → p ≠ n - 1 - k → i.testBit p = j.testBit p then
      ent G (bitAt i (n - 1 - k)) (bitAt j (n - 1 - k))
    else 0

/-- The CNOT operator read off its truth table: row `i` has its single 1 in the column
obtained from `i` by flipping the target bit when the control bit of `i` is set -/
def cnotTruthTable (n c t : Nat) : Matrix :=
  toMat (2 ^ n) fun i j =>
    if j = (if i.testBit (n - 1 - c) then i ^^^ 2 ^ (n - 1 - t) else i) then 1 else 0

/-- What factor `k` of the CNOT product asks of the bits of `i` and `j` for its entry to
be 1: both control bits set, the target bits different, every other bit equal -/
def cnotBitCond (m c t i j k : Nat) : Prop :=
  if k = c then i.testBit (m - c) = true ∧ j.testBit (m - c) = true
  else if k = t then i.testBit (m - t) ≠ j.testBit (m - t)
  else i.testBit (m - k) = j.testBit (m - k)

instance (m c t i j k : Nat) : Decidable (cnotBitCond m c t i j k) := by
  unfold cnotBitCond; infer_instance

/-! ## Additive structure, and further definitions for the specification -/

theorem F64.fin_add_fin (x y : QSqrt2) : F64.fin x + F64.fin y = F64.fin (x + y) := rfl

theorem F64.nan_add (x : F64) : F64.nan + x = F64.nan := rfl

theorem F64.add_nan (x : F64) : x + F64.nan = F64.nan := by cases x <;> rfl

instance : AddCommMonoid F64 where
  add_assoc := by
    intro a b c
    cases a <;> cases b <;> cases c <;>
      simp only [F64.fin_add_fin, F64.nan_add, F64.add_nan, add_assoc]
  zero_add := by
    intro a
    cases a
    · rfl
    · show F64.fin 0 + F64.fin _ = _
      rw [F64.fin_add_fin, zero_add]
  add_zero := by
    intro a
    cases a
    · rfl
    · show F64.fin _ + F64.fin 0 = _
      rw [F64.fin_add_fin, add_zero]
  add_comm := by
    intro a b
    cases a <;> cases b <;>
      simp only [F64.fin_add_fin, F64.nan_add, F64.add_nan, add_comm]
  nsmul := nsmulRec

theorem Complex128.add_def (x y : Complex128) : x + y = ⟨x.re + y.re, x.im + y.im⟩ := rfl

instance : AddCommMonoid Complex128 where
  add_assoc := by intro a b c; simp only [Complex128.add_def, add_assoc]
  zero_add := by
    intro a
    show Complex128.mk ((0 : F64) + a.re) ((0 : F64) + a.im) = a
    rw [zero_add, zero_add]
  add_zero := by
    intro a
    show Complex128.mk (a.re + (0 : F64)) (a.im + (0 : F64)) = a
    rw [add_zero, add_zero]
  add_comm := by
    intro a b
    simp only [Complex128.add_def]
    rw [add_comm a.re, add_comm a.im]
  nsmul := nsmulRec

/-- The `n` binary digits of `d`, most significant first -/
def bitChars (n d : Nat) : List Char :=
  (List.range n).map fun p => if d.testBit (n - 1 - p) then '1' else '0'

/-- The string of the `n` binary digits of `d`, most significant first -/
def bitString (n d : Nat) : String := String.mk (bitChars n d)

/-- The `d × d` identity matrix -/
def identityMatrix (d : Nat) : Matrix := toMat d fun i j => if i = j then 1 else 0

/-- Conjugate transpose `M†` of a square matrix -/
def conjTranspose (m : Matrix) : Matrix := toMat m.length fun i j => (ent m j i).conj

/-- Product `A · B` of two square matrices of the size of `A` -/
def matMul (a b : Matrix) : Matrix :=
  toMat a.length fun i j =>
    (List.range a.length).foldl (fun acc k => acc + ent a i k * ent b k j) 0

/-- A sequence of `applyGate` calls on one register; it stops at the first panic -/
def applyGates : List (String × Int × Int) → QuantumRegister →
    Except GoPanic Unit × QuantumRegister
  | [], qr => (.ok (), qr)
  | (gate, qubit1, qubit2) :: rest, qr =>
    match applyGate gate qubit1 qubit2 qr with
    | (.ok _, qr') => applyGates rest qr'
    | (.error e, qr') => (.error e, qr')

/-- A random source that always draws the last index -/
def lastIndexSource : RandSource := ⟨fun n => n - 1, fun _ h => Nat.sub_lt h Nat.one_pos⟩

/-- A random source that always draws index 0 -/
def firstIndexSource : RandSource := ⟨fun _ => 0, fun _ h => h⟩

/-- What factor `k` of the product with the control placeholder alone asks of the bits of
`i` and `j` for its entry to be 1: both control bits set, every other bit equal -/
def ctrlBitCond (m c i j k : Nat) : Prop :=
  if k = c then i.testBit (m - c) = true ∧ j.testBit (m - c) = true
  else i.testBit (m - k) = j.testBit (m - k)

instance (m c i j k : Nat) : Decidable (ctrlBitCond m c i j k) := by
  unfold ctrlBitCond; infer_instance

/-- A matrix is square of dimension `p`: `p` rows of `p` entries each -/
def IsSquare (A : Matrix) (p : Nat) : Prop := A.length = p ∧ ∀ row ∈ A, row.length = p

instance (A : Matrix) (p : Nat) : Decidable (IsSquare A p) := by
  unfold IsSquare; infer_instance

/-- A matrix is symmetric on its first `d` rows and columns: `M[i][j] = M[j][i]` -/
def SymmetricOn (M : Matrix) (d : Nat) : Prop :=
  ∀ i j, i < d → j < d → ent M i j = ent M j i

/-- A matrix is antisymmetric on its first `d` rows and columns: `M[j][i] = -M[i][j]` -/
def AntisymmetricOn (M : Matrix) (d : Nat) : Prop :=
  ∀ i j, i < d → j < d → ent M j i = -(ent M i j)

/-- The row-vector product `a · M`: entry `i` is `Σ_j a[j] * M[j][i]` -/
def rowProduct (a : List Complex128) (M : Matrix) (d : Nat) : List Complex128 :=
  (List.range d).map fun i => ∑ j in Finset.range d, a.getD j 0 * ent M j i

/-- The column-vector product `M · a`: entry `i` is `Σ_j M[i][j] * a[j]` -/
def columnProduct (M : Matrix) (a : List Complex128) (d : Nat) : List Complex128 :=
  (List.range d).map fun i => ∑ j in Finset.range d, ent M i j * a.getD j 0

/-! ## Exact complex numbers: the values of `complex128` that are numbers -/

/-- Exact complex number `re + im·i` with real and imaginary part in `ℚ(√2)` -/
@[ext] structure Cx where
  re : QSqrt2
  im : QSqrt2
deriving DecidableEq

namespace Cx

instance : Zero Cx := ⟨⟨0, 0⟩⟩

instance : One Cx := ⟨⟨1, 0⟩⟩

instance : Add Cx := ⟨fun x y => ⟨x.re + y.re, x.im + y.im⟩⟩

instance : Neg Cx := ⟨fun x => ⟨-x.re, -x.im⟩⟩

instance : Sub Cx := ⟨fun x y => ⟨x.re - y.re, x.im - y.im⟩⟩

instance : Mul Cx := ⟨fun x y => ⟨x.re * y.re - x.im * y.im, x.re * y.im + x.im * y.re⟩⟩

@[simp] theorem zero_re : (0 : Cx).re = 0 := rfl

@[simp] theorem zero_im : (0 : Cx).im = 0 := rfl

@[simp] theorem one_re : (1 : Cx).re = 1 := rfl

@[simp] theorem one_im : (1 : Cx).im = 0 := rfl

@[simp] theorem add_re (x y : Cx) : (x + y).re = x.re + y.re := rfl

@[simp] theorem add_im (x y : Cx) : (x + y).im = x.im + y.im := rfl

@[simp] theorem neg_re (x : Cx) : (-x).re = -x.re := rfl

@[simp] theorem neg_im (x : Cx) : (-x).im = -x.im := rfl

@[simp] theorem sub_re (x y : Cx) : (x - y).re = x.re - y.re := rfl

@[simp] theorem sub_im (x y : Cx) : (x - y).im = x.im - y.im := rfl

@[simp] theorem mul_re (x y : Cx) : (x * y).re = x.re * y.re - x.im * y.im := rfl

@[simp] theorem mul_im (x y : Cx) : (x * y).im = x.re * y.im + x.im * y.re := rfl

theorem add_assoc_cx (a b c : Cx) : a + b + c = a + (b + c) := by
  refine Cx.ext ?_ ?_ <;> simp only [add_re, add_im] <;> ring

theorem zero_add_cx (a : Cx) : 0 + a = a := by
  refine Cx.ext ?_ ?_ <;> simp only [add_re, add_im, zero_re, zero_im] <;> ring

theorem add_comm_cx (a b : Cx) : a + b = b + a := by
  refine Cx.ext ?_ ?_ <;> simp only [add_re, add_im] <;> ring

theorem neg_add_cancel_cx (a : Cx) : -a + a = 0 := by
  refine Cx.ext ?_ ?_ <;> simp only [add_re, add_im, neg_re, neg_im, zero_re, zero_im] <;> ring

theorem sub_eq_add_neg_cx (a b : Cx) : a - b = a + -b := by
  refine Cx.ext ?_ ?_ <;> simp only [add_re, add_im, neg_re, neg_im, sub_re, sub_im] <;> ring

theorem left_distrib_cx (a b c : Cx) : a * (b + c) = a * b + a * c := by
  refine Cx.ext ?_ ?_ <;> simp only [add_re, add_im, mul_re, mul_im] <;> ring

theorem zero_mul_cx (a : Cx) : 0 * a = 0 := by
  refine Cx.ext ?_ ?_ <;> simp only [mul_re, mul_im, zero_re, zero_im] <;> ring

theorem mul_assoc_cx (a b c : Cx) : a * b * c = a * (b * c) := by
  refine Cx.ext ?_ ?_ <;> simp only [mul_re, mul_im] <;> ring

theorem one_mul_cx (a : Cx) : 1 * a = a := by
  refine Cx.ext ?_ ?_ <;> simp only [mul_re, mul_im, one_re, one_im] <;> ring

theorem mul_comm_cx (a b : Cx) : a * b = b * a := by
  refine Cx.ext ?_ ?_ <;> simp only [mul_re, mul_im] <;> ring

instance : CommRing Cx where
  add_assoc := add_assoc_cx
  zero_add := zero_add_cx
  add_zero := fun a => (add_comm_cx a 0).trans (zero_add_cx a)
  add_comm := add_comm_cx
  nsmul := nsmulRec
  zsmul := zsmulRec
  neg_add_cancel := neg_add_cancel_cx
  sub_eq_add_neg := sub_eq_add_neg_cx
  left_distrib := left_distrib_cx
  right_distrib := fun a b c => by
    rw [mul_comm_cx (a + b) c, left_distrib_cx, mul_comm_cx c a, mul_comm_cx c b]
  zero_mul := zero_mul_cx
  mul_zero := fun a => (mul_comm_cx a 0).trans (zero_mul_cx a)
  mul_assoc := mul_assoc_cx
  one_mul := one_mul_cx
  mul_one := fun a => (mul_comm_cx a 1).trans (one_mul_cx a)
  mul_comm := mul_comm_cx

/-- Complex conjugate -/
def conj (x : Cx) : Cx := ⟨x.re, -x.im⟩

/-- Squared magnitude `re² + im²` -/
def normSq (x : Cx) : QSqrt2 := x.re * x.re + x.im * x.im

/-- The `complex128` value of an exact complex number -/
def toC (x : Cx) : Complex128 := ⟨.fin x.re, .fin x.im⟩

end Cx

/-- The number a float holds; 0 for NaN -/
def F64.toQ : F64 → QSqrt2
  | .fin x => x
  | .nan => 0

/-- The exact complex number a `complex128` value holds; NaN components count as 0 -/
def Complex128.toCx (z : Complex128) : Cx := ⟨z.re.toQ, z.im.toQ⟩

/-- Entries of the left fold of `m + 1` two-by-two factors, over the exact numbers -/
def foldEntriesCx (g : Nat → Nat → Nat → Cx) : Nat → Nat → Nat → Cx
  | 0 => g 0
  | m + 1 => fun i j => foldEntriesCx g m (i / 2) (j / 2) * g (m + 1) (i % 2) (j % 2)

/-- The rows of the `d × d` table `F` are orthonormal: `F · F† = I` -/
def UnitaryOn (F : Nat → Nat → Cx) (d : Nat) : Prop :=
  ∀ i j, i < d → j < d →
    (∑ l in Finset.range d, F i l * (F j l).conj) = if i = j then 1 else 0

/-- The two-by-two matrix `G` has orthonormal rows, written out -/
def IsUnitary2 (G : Matrix) : Prop :=
  ∀ a b : Bool,
    (ent G a.toNat 0).toCx * (ent G b.toNat 0).toCx.conj +
      (ent G a.toNat 1).toCx * (ent G b.toNat 1).toCx.conj = if a = b then 1 else 0

instance (G : Matrix) : Decidable (IsUnitary2 G) := by
  unfold IsUnitary2; infer_instance

/-- An `applyGate` call the claims call valid on `n` qubits: a catalogued single-qubit
name with `qubit1` in `[0, n)`, or CNOT with control and target in `[0, n)` and distinct -/
def ValidCall (n : Nat) (call : String × Int × Int) : Prop :=
  (call.1 ∈ singleQubitNames ∧ 0 ≤ call.2.1 ∧ call.2.1 < (n : Int)) ∨
  (call.1 = "CNOT" ∧ 0 ≤ call.2.1 ∧ call.2.1 < (n : Int) ∧
    0 ≤ call.2.2 ∧ call.2.2 < (n : Int) ∧ call.2.1 ≠ call.2.2)

instance (n : Nat) (call : String × Int × Int) : Decidable (ValidCall n call) := by
  unfold ValidCall; infer_instance

/-! ## Lemmas on `kron`, `reduce` and `GenerateGate` -/

theorem mapM_ok {α β : Type} (f : α → Except GoPanic β) (g : α → β) (l : List α)
    (h : ∀ x ∈ l, f x = .ok (g x)) : l.mapM f = .ok (l.map g) := by
  induction l with
  | nil => rfl
  | cons a l ih =>
    rw [List.mapM_cons, h a (List.mem_cons_self _ _),
      ih (fun x hx => h x (List.mem_cons_of_mem _ hx))]
    rfl

theorem toMat_length (d : Nat) (f : Nat → Nat → Complex128) : (toMat d f).length = d := by
  simp [toMat]

theorem index_toMat {d i : Nat} (f : Nat → Nat → Complex128) (h : i < d) :
    index (toMat d f) i = .ok ((List.range d).map fun j => f i j) := by
  simp [index, toMat, h]

theorem index_row {d j : Nat} (f : Nat → Complex128) (h : j < d) :
    index ((List.range d).map f) j = .ok (f j) := by
  simp [index, h]

theorem kron_toMat (p q : Nat) (f g : Nat → Nat → Complex128) :
    kron (toMat p f) (toMat q g) =
      .ok (toMat (p * q) fun i j => f (i / q) (j / q) * g (i % q) (j % q)) := by
  unfold kron
  simp only [toMat_length]
  have hq : ∀ i, i < p * q → i / q < p ∧ i % q < q := by
    intro i hi
    have hq0 : 0 < q := by
      rcases Nat.eq_zero_or_pos q with h | h
      · subst h; simp at hi
      · exact h
    exact ⟨Nat.div_lt_of_lt_mul (by rwa [Nat.mul_comm] at hi), Nat.mod_lt _ hq0⟩
  apply mapM_ok
  intro i hi
  have hi' := hq i (List.mem_range.mp hi)
  apply mapM_ok
  intro j hj
  have hj' := hq j (List.mem_range.mp hj)
  simp only [index_toMat f hi'.1, index_toMat g hi'.2]
  show (do
      let x ← index (List.map (fun j => f (i / q) j) (List.range p)) (j / q)
      let y ← index (List.map (fun j => g (i % q) j) (List.range q)) (j % q)
      pure (x * y)) = _
  rw [index_row _ hj'.1, index_row _ hj'.2]
  rfl

theorem kron_nil_left (b : Matrix) : kron [] b = .ok [] := by
  simp only [kron, List.length_nil, Nat.zero_mul, List.range_zero]
  rfl

theorem kron_nil_right (a : Matrix) : kron a [] = .ok [] := by
  simp only [kron, List.length_nil, Nat.mul_zero, List.range_zero]
  rfl

theorem reduce_append_singleton (l : List Matrix) (x : Matrix) (h : l ≠ []) :
    reduce (l ++ [x]) = (reduce l).bind fun r => kron r x := by
  induction l using reduce.induct with
  | case1 => exact absurd rfl h
  | case2 gate =>
    show reduce [gate, x] = _
    rw [reduce.eq_3]
    cases hk : kron gate x with
    | error e => simp [reduce, Except.bind, hk]
    | ok r => simp [reduce, Except.bind, hk]
  | case3 g1 g2 rest e hk =>
    show reduce (g1 :: g2 :: (rest ++ [x])) = _
    rw [reduce.eq_3, hk, reduce.eq_3, hk]
    rfl
  | case4 g1 g2 rest r hk ih =>
    show reduce (g1 :: g2 :: (rest ++ [x])) = _
    rw [reduce.eq_3, hk]
    have := ih (by simp)
    simp only [List.cons_append] at this
    simp only [this]
    rw [reduce.eq_3 g1 g2 rest, hk]

theorem reduce_factors (g : Nat → Nat → Nat → Complex128) (m : Nat) :
    reduce ((List.range (m + 1)).map fun k => toMat 2 (g k)) =
      .ok (toMat (2 ^ (m + 1)) (foldEntries g m)) := by
  induction m with
  | zero => rw [show List.range (0 + 1) = [0] from rfl, List.map_singleton, reduce.eq_2]; rfl
  | succ m ih =>
    rw [List.range_succ, List.map_append, List.map_singleton,
      reduce_append_singleton _ _ (by simp [List.range_succ]), ih]
    show kron _ _ = _
    rw [kron_toMat]
    rfl

theorem bitAt_zero (i : Nat) : bitAt i 0 = i % 2 := by
  unfold bitAt
  rw [Nat.testBit_zero]
  rcases Nat.mod_two_eq_zero_or_one i with h | h <;> simp [h]

theorem bitAt_succ (i p : Nat) : bitAt i (p + 1) = bitAt (i / 2) p := by
  unfold bitAt
  rw [Nat.testBit_succ]

theorem prodEntries_congr (e e' : Nat → Complex128) (m : Nat) (h : ∀ k, k ≤ m → e k = e' k) :
    prodEntries e m = prodEntries e' m := by
  induction m with
  | zero => exact h 0 (Nat.le_refl _)
  | succ m ih =>
    simp only [prodEntries]
    rw [ih (fun k hk => h k (Nat.le_succ_of_le hk)), h (m + 1) (Nat.le_refl _)]

theorem foldEntries_eq_prod (g : Nat → Nat → Nat → Complex128) (m i j : Nat)
    (hi : i < 2 ^ (m + 1)) (hj : j < 2 ^ (m + 1)) :
    foldEntries g m i j = prodEntries (fun k => g k (bitAt i (m - k)) (bitAt j (m - k))) m := by
  induction m generalizing i j with
  | zero =>
    simp only [foldEntries, prodEntries, Nat.sub_self, bitAt_zero]
    have hi' : i % 2 = i := Nat.mod_eq_of_lt (by simpa using hi)
    have hj' : j % 2 = j := Nat.mod_eq_of_lt (by simpa using hj)
    rw [hi', hj']
  | succ m ih =>
    have hi2 : i / 2 < 2 ^ (m + 1) := by
      apply Nat.div_lt_of_lt_mul; rw [← Nat.pow_succ']; exact hi
    have hj2 : j / 2 < 2 ^ (m + 1) := by
      apply Nat.div_lt_of_lt_mul; rw [← Nat.pow_succ']; exact hj
    simp only [foldEntries, prodEntries, Nat.sub_self, bitAt_zero]
    rw [ih _ _ hi2 hj2]
    congr 1
    apply prodEntries_congr
    intro k hk
    have : m + 1 - k = (m - k) + 1 := by omega
    simp only [this, bitAt_succ]

theorem Complex128.mul_fin (a b c d : QSqrt2) :
    (⟨.fin a, .fin b⟩ : Complex128) * ⟨.fin c, .fin d⟩ =
      ⟨.fin (a * c - b * d), .fin (a * d + b * c)⟩ := rfl

theorem Complex128.zero_def : (0 : Complex128) = ⟨.fin 0, .fin 0⟩ := rfl

theorem Complex128.one_def : (1 : Complex128) = ⟨.fin 1, .fin 0⟩ := rfl

theorem Complex128.notNaN_iff (z : Complex128) :
    z.notNaN = true ↔ ∃ a b, z = ⟨.fin a, .fin b⟩ := by
  rcases z with ⟨re, im⟩
  cases re <;> cases im <;> simp [Complex128.notNaN, F64.IsNaN]

theorem Complex128.zero_mul_of_notNaN (z : Complex128) (h : z.notNaN = true) : 0 * z = 0 := by
  obtain ⟨a, b, rfl⟩ := (Complex128.notNaN_iff z).mp h
  rw [Complex128.zero_def, Complex128.mul_fin]; simp

theorem Complex128.mul_zero_of_notNaN (z : Complex128) (h : z.notNaN = true) : z * 0 = 0 := by
  obtain ⟨a, b, rfl⟩ := (Complex128.notNaN_iff z).mp h
  rw [Complex128.zero_def, Complex128.mul_fin]; simp

theorem Complex128.one_mul_of_notNaN (z : Complex128) (h : z.notNaN = true) : 1 * z = z := by
  obtain ⟨a, b, rfl⟩ := (Complex128.notNaN_iff z).mp h
  rw [Complex128.one_def, Complex128.mul_fin]; simp

theorem Complex128.mul_one_of_notNaN (z : Complex128) (h : z.notNaN = true) : z * 1 = z := by
  obtain ⟨a, b, rfl⟩ := (Complex128.notNaN_iff z).mp h
  rw [Complex128.one_def, Complex128.mul_fin]; simp

theorem Complex128.notNaN_zero : (0 : Complex128).notNaN = true := rfl

theorem Complex128.notNaN_one : (1 : Complex128).notNaN = true := rfl

theorem Complex128.zero_ne_one : (0 : Complex128) ≠ 1 := by decide!

theorem Complex128.notNaN_mul_left (x y : Complex128) (h : x.notNaN = false) :
    (x * y).notNaN = false := by
  rcases x with ⟨a, b⟩
  rcases y with ⟨c, d⟩
  cases a <;> cases b <;> cases c <;> cases d <;>
    first
      | rfl
      | (simp [Complex128.notNaN, F64.IsNaN] at h)

theorem Complex128.notNaN_mul_right (x y : Complex128) (h : y.notNaN = false) :
    (x * y).notNaN = false := by
  rcases x with ⟨a, b⟩
  rcases y with ⟨c, d⟩
  cases a <;> cases b <;> cases c <;> cases d <;>
    first
      | rfl
      | (simp [Complex128.notNaN, F64.IsNaN] at h)

theorem prodEntries_nan (e : Nat → Complex128) (m k : Nat) (hk : k ≤ m)
    (h : (e k).notNaN = false) : (prodEntries e m).notNaN = false := by
  induction m with
  | zero =>
    have : k = 0 := by omega
    subst this; exact h
  | succ m ih =>
    simp only [prodEntries]
    rcases Nat.eq_or_lt_of_le hk with h1 | h1
    · subst h1; exact Complex128.notNaN_mul_right _ _ h
    · exact Complex128.notNaN_mul_left _ _ (ih (by omega))

theorem prodEntries_special (e : Nat → Complex128) (m q : Nat)
    (hq : q ≤ m → (e q).notNaN = true)
    (h01 : ∀ k, k ≤ m → k ≠ q → e k = 0 ∨ e k = 1) :
    prodEntries e m =
      if ∀ k, k ≤ m → k ≠ q → e k = 1 then (if q ≤ m then e q else 1) else 0 := by
  induction m with
  | zero =>
    simp only [prodEntries, Nat.le_zero]
    by_cases hq0 : q = 0
    · subst hq0; simp
    · have := h01 0 (Nat.le_refl _) (fun h => hq0 h.symm)
      rcases this with h | h
      · have hq0' : ¬ (0 = q) := fun h' => hq0 h'.symm
        simp [h, hq0, hq0', Complex128.zero_ne_one]
      · simp [h, hq0]
  | succ m ih =>
    simp only [prodEntries]
    rw [ih (fun h => hq (Nat.le_succ_of_le h)) (fun k hk hne => h01 k (Nat.le_succ_of_le hk) hne)]
    by_cases hqm : q = m + 1
    · subst hqm
      have hfin := hq (Nat.le_refl _)
      have hno : ¬ (m + 1 ≤ m) := by omega
      have hiff : (∀ k, k ≤ m + 1 → k ≠ m + 1 → e k = 1) ↔ (∀ k, k ≤ m → k ≠ m + 1 → e k = 1) := by
        constructor
        · intro h k hk hne; exact h k (Nat.le_succ_of_le hk) hne
        · intro h k hk hne; exact h k (by omega) hne
      simp only [hiff, hno, if_false, Nat.le_refl, if_true]
      split
      · exact Complex128.one_mul_of_notNaN _ hfin
      · exact Complex128.zero_mul_of_notNaN _ hfin
    · have hqm' : m + 1 ≠ q := fun h => hqm h.symm
      have hlast := h01 (m + 1) (Nat.le_refl _) hqm'
      have hiff : (∀ k, k ≤ m + 1 → k ≠ q → e k = 1) ↔
          ((∀ k, k ≤ m → k ≠ q → e k = 1) ∧ e (m + 1) = 1) := by
        constructor
        · intro h
          exact ⟨fun k hk hne => h k (Nat.le_succ_of_le hk) hne, h _ (Nat.le_refl _) hqm'⟩
        · intro h k hk hne
          rcases Nat.eq_or_lt_of_le hk with h1 | h1
          · subst h1; exact h.2
          · exact h.1 k (by omega) hne
      have hqle : q ≤ m + 1 ↔ q ≤ m := by omega
      simp only [hiff, hqle]
      have hfin : ∀ z : Complex128, (if q ≤ m then e q else 1) = z → z.notNaN = true := by
        intro z hz; subst hz
        split
        · next h => exact hq (Nat.le_succ_of_le h)
        · exact Complex128.notNaN_one
      rcases hlast with h | h
      · rw [h]
        simp only [Complex128.zero_ne_one, and_false, if_false]
        split
        · exact Complex128.mul_zero_of_notNaN _ (hfin _ rfl)
        · exact Complex128.mul_zero_of_notNaN _ Complex128.notNaN_zero
      · rw [h]
        simp only [and_true]
        split
        · exact Complex128.mul_one_of_notNaN _ (hfin _ rfl)
        · exact Complex128.mul_one_of_notNaN _ Complex128.notNaN_zero

theorem toMat_congr (d : Nat) (f f' : Nat → Nat → Complex128)
    (h : ∀ i j, i < d → j < d → f i j = f' i j) : toMat d f = toMat d f' := by
  unfold toMat
  apply List.map_congr_left
  intro i hi
  apply List.map_congr_left
  intro j hj
  exact h i j (List.mem_range.mp hi) (List.mem_range.mp hj)

theorem get_Id : NewGates.get "Id" = idGate := by decide!

theorem idGate_eq : idGate = toMat 2 (ent idGate) := by decide!

theorem ent_idGate (a b : Bool) : ent idGate a.toNat b.toNat = if a = b then 1 else 0 := by
  cases a <;> cases b <;> rfl

theorem generateGate_single_fold (gate : String) (m : Nat) (qubit1 qubit2 : Int)
    (hname : gate ≠ "CNOT") (hG : NewGates.get gate = toMat 2 (ent (NewGates.get gate))) :
    GenerateGate gate ((m + 1 : Nat) : Int) qubit1 qubit2 =
      .ok (toMat (2 ^ (m + 1))
        (foldEntries (fun k => ent (if (k : Int) = qubit1 then NewGates.get gate else idGate)) m)) := by
  have hneg : ¬ (((m + 1 : Nat) : Int) < 0) := by omega
  simp only [GenerateGate, hname, if_false, hneg, Int.toNat_ofNat, get_Id]
  have hmap : (List.range (m + 1)).map
        (fun (i : Nat) => if (i : Int) = qubit1 then NewGates.get gate else idGate) =
      (List.range (m + 1)).map (fun (i : Nat) => toMat 2
        (fun a b => ent (if (i : Int) = qubit1 then NewGates.get gate else idGate) a b)) := by
    apply List.map_congr_left
    intro i _
    split
    · exact hG
    · exact idGate_eq
  rw [hmap, reduce_factors]

theorem generateGate_single (gate : String) (m k : Nat) (qubit2 : Int) (hk : k ≤ m)
    (hname : gate ≠ "CNOT") (hG : IsGate2 (NewGates.get gate)) :
    GenerateGate gate ((m + 1 : Nat) : Int) (k : Int) qubit2 =
      .ok (singleQubitOperator (NewGates.get gate) (m + 1) k) := by
  rw [generateGate_single_fold gate m k qubit2 hname hG.1]
  congr 1
  apply toMat_congr
  intro i j hi hj
  simp only [Nat.cast_inj]
  rw [foldEntries_eq_prod _ _ _ _ hi hj]
  rw [prodEntries_special _ m k]
  · simp only [hk, if_true, Nat.add_sub_cancel]
    have hiff : (∀ k', k' ≤ m → k' ≠ k →
        ent (if k' = k then NewGates.get gate else idGate) (bitAt i (m - k')) (bitAt j (m - k')) = 1) ↔
        (∀ p, p < m + 1 → p ≠ m - k → i.testBit p = j.testBit p) := by
      constructor
      · intro h p hp hne
        have h1 := h (m - p) (by omega) (by omega)
        have h2 : ¬ (m - p = k) := by omega
        have h3 : m - (m - p) = p := by omega
        simp only [h2, if_false, h3, bitAt, ent_idGate] at h1
        by_contra hcon
        simp [hcon, Complex128.zero_ne_one] at h1
      · intro h k' hk' hne
        have h1 := h (m - k') (by omega) (by omega)
        simp only [hne, if_false, bitAt, ent_idGate, h1, if_true]
    simp only [hiff]
  · intro _
    simp only [if_true, bitAt]
    exact hG.2 _ _
  · intro k' _ hne
    simp only [hne, if_false, bitAt, ent_idGate]
    split
    · right; rfl
    · left; rfl

theorem get_X : NewGates.get "X" = xGate := by decide!

theorem xGate_eq : xGate = toMat 2 (ent xGate) := by decide!

theorem cGate_eq : cGate = toMat 2 (ent cGate) := by decide!

theorem ent_xGate (a b : Bool) : ent xGate a.toNat b.toNat = if a = b then 0 else 1 := by
  cases a <;> cases b <;> rfl

theorem ent_cGate_true (a b : Bool) (h : a = true ∨ b = true) :
    ent cGate a.toNat b.toNat = if a = true ∧ b = true then 1 else 0 := by
  cases a <;> cases b <;> first | rfl | simp at h

theorem ent_cGate_false : (ent cGate false.toNat false.toNat).notNaN = false := rfl

theorem testBit_high {i m r : Nat} (hi : i < 2 ^ (m + 1)) (hr : m < r) : i.testBit r = false := by
  apply Nat.testBit_lt_two_pow
  calc i < 2 ^ (m + 1) := hi
    _ ≤ 2 ^ r := Nat.pow_le_pow_right (by decide) hr

theorem nanFill_toMat (d : Nat) (F : Nat → Nat → Complex128) :
    ((List.range (toMat d F).length).mapM fun i =>
      (List.range (toMat d F).length).mapM fun j => do
        let v ← index (← index (toMat d F) i) j
        if !F64.IsNaN v.re && !F64.IsNaN v.im then pure v
        else if i = j then pure ⟨1, 0⟩
        else (pure ⟨0, 0⟩ : Except GoPanic Complex128)) =
      .ok (toMat d fun i j => if (F i j).notNaN then F i j else if i = j then 1 else 0) := by
  rw [toMat_length]
  apply mapM_ok
  intro i hi
  apply mapM_ok
  intro j hj
  rw [index_toMat F (List.mem_range.mp hi)]
  show (do
      let v ← index (List.map (fun j => F i j) (List.range d)) j
      if !F64.IsNaN v.re && !F64.IsNaN v.im then pure v
      else if i = j then pure ⟨1, 0⟩
      else (pure ⟨0, 0⟩ : Except GoPanic Complex128)) = _
  rw [index_row _ (List.mem_range.mp hj)]
  show (if (F i j).notNaN = true then (pure (F i j) : Except GoPanic Complex128)
      else if i = j then pure 1 else pure 0) = _
  by_cases h : (F i j).notNaN = true
  · simp only [h, if_true]; rfl
  · by_cases h2 : i = j
    · subst h2; simp only [h, if_true, if_false]; rfl
    · simp only [h, h2, if_false]; rfl

theorem cnot_entry (m c t : Nat) (hc : c ≤ m) (ht : t ≤ m) (hct : c ≠ t) (i j : Nat)
    (hi : i < 2 ^ (m + 1)) (hj : j < 2 ^ (m + 1)) :
    (if (prodEntries (fun k => ent (if k = c then cGate else if k = t then xGate else idGate)
          (bitAt i (m - k)) (bitAt j (m - k))) m).notNaN = true then
        prodEntries (fun k => ent (if k = c then cGate else if k = t then xGate else idGate)
          (bitAt i (m - k)) (bitAt j (m - k))) m
      else if i = j then 1 else 0) =
    if j = if i.testBit (m - c) = true then i ^^^ 2 ^ (m - t) else i then 1 else 0 := by
  generalize he : (fun k => ent (if k = c then cGate else if k = t then xGate else idGate)
          (bitAt i (m - k)) (bitAt j (m - k))) = e
  have hec : e c = ent cGate (i.testBit (m - c)).toNat (j.testBit (m - c)).toNat := by
    subst he; simp only [if_true, bitAt]
  have het : e t = ent xGate (i.testBit (m - t)).toNat (j.testBit (m - t)).toNat := by
    subst he
    have : ¬ (t = c) := fun h => hct h.symm
    simp only [this, if_true, if_false, bitAt]
  have heo : ∀ k, k ≠ c → k ≠ t →
      e k = ent idGate (i.testBit (m - k)).toNat (j.testBit (m - k)).toNat := by
    intro k h1 h2
    subst he; simp only [h1, h2, if_false, bitAt]
  by_cases hb : i.testBit (m - c) = false ∧ j.testBit (m - c) = false
  · have hnan : (prodEntries e m).notNaN = false := by
      apply prodEntries_nan e m c hc
      rw [hec, hb.1, hb.2]; exact ent_cGate_false
    simp only [hnan, hb.1, Bool.false_eq_true, if_false]
    by_cases hij : i = j
    · subst hij; simp only [if_true]
    · have hji : ¬ j = i := fun h => hij h.symm
      simp only [hij, hji, if_false]
  · have hb' : i.testBit (m - c) = true ∨ j.testBit (m - c) = true := by
      by_contra hcon
      apply hb
      constructor
      · cases h : i.testBit (m - c)
        · rfl
        · exact absurd (Or.inl h) hcon
      · cases h : j.testBit (m - c)
        · rfl
        · exact absurd (Or.inr h) hcon
    have hval : ∀ k, e k = if cnotBitCond m c t i j k then 1 else 0 := by
      intro k
      unfold cnotBitCond
      by_cases h1 : k = c
      · subst h1; rw [hec, ent_cGate_true _ _ hb']; simp only [if_true]
      · by_cases h2 : k = t
        · subst h2; rw [het, ent_xGate]; simp only [h1, if_true, if_false]
          by_cases h3 : i.testBit (m - k) = j.testBit (m - k)
          · simp only [h3, if_true, ne_eq, not_true_eq_false, if_false]
          · simp only [h3, if_false, ne_eq, not_false_eq_true, if_true]
        · rw [heo k h1 h2, ent_idGate]; simp only [h1, h2, if_false]
    have hone : ∀ k, e k = 1 → cnotBitCond m c t i j k := by
      intro k hk
      rw [hval k] at hk
      by_contra hcon
      simp only [hcon, if_false] at hk
      exact Complex128.zero_ne_one hk
    have htc : ¬ (t = c) := fun h => hct h.symm
    have h01 : ∀ k, k ≤ m → k ≠ m + 1 → e k = 0 ∨ e k = 1 := by
      intro k _ _
      rw [hval k]
      by_cases hq : cnotBitCond m c t i j k
      · right; simp only [hq, if_true]
      · left; simp only [hq, if_false]
    have hno : ¬ (m + 1 ≤ m) := by omega
    rw [prodEntries_special e m (m + 1) (fun h => absurd h hno) h01]
    simp only [hno, if_false]
    have hP : (∀ k, k ≤ m → k ≠ m + 1 → e k = 1) ↔
        j = if i.testBit (m - c) = true then i ^^^ 2 ^ (m - t) else i := by
      constructor
      · intro H
        have Hc' : i.testBit (m - c) = true ∧ j.testBit (m - c) = true := by
          have := hone c (H c hc (by omega))
          simpa only [cnotBitCond, if_true] using this
        simp only [Hc'.1, if_true]
        apply Nat.eq_of_testBit_eq
        intro r
        rw [Nat.testBit_xor, Nat.testBit_two_pow]
        by_cases hr : m < r
        · have hne : ¬ (m - t = r) := by omega
          simp [testBit_high hi hr, testBit_high hj hr, hne]
        · have hmr : m - (m - r) = r := by omega
          by_cases h1 : m - r = c
          · have hrc : r = m - c := by omega
            have hne : ¬ (m - t = r) := by omega
            subst hrc
            simp [Hc'.1, Hc'.2, hne]
          · by_cases h2 : m - r = t
            · have hrt : r = m - t := by omega
              have hd : i.testBit (m - t) ≠ j.testBit (m - t) := by
                have := hone t (H t ht (by omega))
                simpa only [cnotBitCond, htc, if_true, if_false] using this
              subst hrt
              cases hx : i.testBit (m - t) <;> cases hy : j.testBit (m - t) <;>
                simp [hx, hy] at hd ⊢
            · have hne : ¬ (m - t = r) := by omega
              have hd : i.testBit r = j.testBit r := by
                have := hone (m - r) (H (m - r) (by omega) (by omega))
                simpa only [cnotBitCond, h1, h2, if_false, hmr] using this
              simp [hd, hne]
      · intro H k hk _
        rw [hval k]
        unfold cnotBitCond
        have hic : i.testBit (m - c) = true := by
          rcases hb' with h | h
          · exact h
          · by_contra hcon
            simp only [hcon, if_false] at H
            subst H
            exact hcon h
        simp only [hic, if_true] at H
        have hbit : ∀ r, j.testBit r = (i.testBit r ^^ decide (m - t = r)) := by
          intro r; rw [H, Nat.testBit_xor, Nat.testBit_two_pow]
        by_cases h1 : k = c
        · have hne : ¬ (m - t = m - c) := by omega
          subst h1
          simp [hbit, hic, hne]
        · by_cases h2 : k = t
          · subst h2
            simp [h1, hbit]
          · have hne : ¬ (m - t = m - k) := by omega
            simp [h1, h2, hbit, hne]
    by_cases hp : j = if i.testBit (m - c) = true then i ^^^ 2 ^ (m - t) else i
    · rw [if_pos (hP.mpr hp), if_pos hp]
      simp only [Complex128.notNaN_one, if_true]
    · have hp' : ¬ (∀ k, k ≤ m → k ≠ m + 1 → e k = 1) := fun h => hp (hP.mp h)
      rw [if_neg hp', if_neg hp]
      simp only [Complex128.notNaN_zero, if_true]

theorem generateGate_cnot_fold (m : Nat) (qubit1 qubit2 : Int) :
    GenerateGate "CNOT" ((m + 1 : Nat) : Int) qubit1 qubit2 =
      .ok (toMat (2 ^ (m + 1)) fun i j =>
        if (foldEntries (fun k => ent (if (k : Int) = qubit1 then cGate
              else if (k : Int) = qubit2 then xGate else idGate)) m i j).notNaN then
          foldEntries (fun k => ent (if (k : Int) = qubit1 then cGate
              else if (k : Int) = qubit2 then xGate else idGate)) m i j
        else if i = j then 1 else 0) := by
  have hneg : ¬ (((m + 1 : Nat) : Int) < 0) := by omega
  simp only [GenerateGate, if_true, if_false, hneg, Int.toNat_ofNat, get_Id, get_X]
  have hmap : (List.range (m + 1)).map
        (fun (i : Nat) => if (i : Int) = qubit1 then cGate
          else if (i : Int) = qubit2 then xGate else idGate) =
      (List.range (m + 1)).map (fun (i : Nat) => toMat 2
        (fun a b => ent (if (i : Int) = qubit1 then cGate
          else if (i : Int) = qubit2 then xGate else idGate) a b)) := by
    apply List.map_congr_left
    intro i _
    split
    · exact cGate_eq
    · split
      · exact xGate_eq
      · exact idGate_eq
  have hC : ([[⟨F64.nan, 0⟩, ⟨0, 0⟩], [⟨0, 0⟩, ⟨1, 0⟩]] : Matrix) = cGate := rfl
  rw [hC, hmap, reduce_factors]
  exact nanFill_toMat _ _

theorem generateGate_cnot (m c t : Nat) (hc : c ≤ m) (ht : t ≤ m) (hct : c ≠ t) :
    GenerateGate "CNOT" ((m + 1 : Nat) : Int) (c : Int) (t : Int) =
      .ok (cnotTruthTable (m + 1) c t) := by
  rw [generateGate_cnot_fold]
  congr 1
  apply toMat_congr
  intro i j hi hj
  simp only [Nat.add_sub_cancel, Nat.cast_inj]
  rw [foldEntries_eq_prod _ _ _ _ hi hj]
  exact cnot_entry m c t hc ht hct i j hi hj

theorem isGate2_of_mem (gate : String) (hg : gate ∈ singleQubitNames) :
    gate ≠ "CNOT" ∧ IsGate2 (NewGates.get gate) := by
  simp only [singleQubitNames, List.mem_cons, List.mem_singleton, List.not_mem_nil, or_false] at hg
  rcases hg with rfl | rfl | rfl | rfl | rfl | rfl | rfl | rfl | rfl <;>
    exact ⟨by decide, by decide!⟩

theorem cnotTruthTable_entries (n c t : Nat) :
    ∀ row ∈ cnotTruthTable n c t, ∀ z ∈ row,
      (z = 1 ∨ z = 0) ∧ F64.IsNaN z.re = false ∧ F64.IsNaN z.im = false := by
  intro row hrow z hz
  simp only [cnotTruthTable, toMat, List.mem_map, List.mem_range] at hrow
  obtain ⟨i, _, rfl⟩ := hrow
  simp only [List.mem_map, List.mem_range] at hz
  obtain ⟨j, _, rfl⟩ := hz
  generalize (if i.testBit (n - 1 - c) = true then i ^^^ 2 ^ (n - 1 - t) else i) = x
  by_cases h : j = x
  · rw [if_pos h]; exact ⟨Or.inl rfl, rfl, rfl⟩
  · rw [if_neg h]; exact ⟨Or.inr rfl, rfl, rfl⟩

/-! ## Lemmas on `matrixMultiply` and `applyGate` -/

theorem index_getD {α : Type} (xs : List α) (i : Nat) (d : α) (h : i < xs.length) :
    index xs i = .ok (xs.getD i d) := by
  simp [index, h, List.getD]

theorem ok_bind {α β : Type} (a : α) (f : α → Except GoPanic β) :
    (Except.ok a >>= f) = f a := rfl

theorem foldlM_range_sum (a : List Complex128) (d : Nat) (F : Nat → Nat → Complex128) (i : Nat)
    (ha : d ≤ a.length) (hi : i < d) (d' : Nat) (hd : d' ≤ d) :
    (List.range d').foldlM (fun (acc : Complex128) j => do
        let x ← index a j
        let y ← index (← index (toMat d F) j) i
        pure (acc + x * y)) (⟨0, 0⟩ : Complex128) =
      (.ok (∑ j in Finset.range d', a.getD j 0 * F j i) : Except GoPanic Complex128) := by
  induction d' with
  | zero => rfl
  | succ d' ih =>
    rw [List.range_succ, List.foldlM_append, ih (by omega), Finset.sum_range_succ]
    simp only [ok_bind, List.foldlM_cons, List.foldlM_nil, index_getD a d' 0 (by omega : d' < a.length),
      index_toMat F (by omega : d' < d), index_row _ hi]
    rfl

theorem matrixMultiply_toMat (a : List Complex128) (d : Nat) (F : Nat → Nat → Complex128)
    (ha : d ≤ a.length) :
    matrixMultiply a (toMat d F) =
      .ok ((List.range d).map fun i => ∑ j in Finset.range d, a.getD j 0 * F j i) := by
  unfold matrixMultiply
  simp only [toMat_length]
  apply mapM_ok
  intro i hi
  exact foldlM_range_sum a d F i ha (List.mem_range.mp hi) d (Nat.le_refl _)

theorem ent_toMat (d : Nat) (F : Nat → Nat → Complex128) (i j : Nat) (hi : i < d) (hj : j < d) :
    ent (toMat d F) i j = F i j := by
  simp [ent, toMat, List.getD, hi, hj]

theorem toMat_row_length (d : Nat) (F : Nat → Nat → Complex128) :
    ∀ row ∈ toMat d F, row.length = d := by
  intro row hrow
  simp only [toMat, List.mem_map, List.mem_range] at hrow
  obtain ⟨i, _, rfl⟩ := hrow
  simp

theorem generateGate_catalogued (gate : String) (m : Nat) (qubit1 qubit2 : Int)
    (hg : gate ∈ singleQubitNames ∨ gate = "CNOT") :
    ∃ F, GenerateGate gate ((m + 1 : Nat) : Int) qubit1 qubit2 = .ok (toMat (2 ^ (m + 1)) F) := by
  rcases hg with hg | rfl
  · have h := isGate2_of_mem gate hg
    exact ⟨_, generateGate_single_fold gate m qubit1 qubit2 h.1 h.2.1⟩
  · exact ⟨_, generateGate_cnot_fold m qubit1 qubit2⟩

theorem applyGate_toMat (gate : String) (qubit1 qubit2 : Int) (qr : QuantumRegister)
    (d : Nat) (F : Nat → Nat → Complex128) (hv : qr.value = "")
    (hM : GenerateGate gate qr.numQubits qubit1 qubit2 = .ok (toMat d F))
    (hlen : d ≤ qr.amplitudes.length) :
    applyGate gate qubit1 qubit2 qr =
      (.ok (), { qr with amplitudes :=
        (List.range d).map fun i => ∑ j in Finset.range d, qr.amplitudes.getD j 0 * F j i }) := by
  unfold applyGate
  simp only [hv, ne_eq, not_true_eq_false, if_false, hM, matrixMultiply_toMat _ _ _ hlen]

/-! ## Lemmas on `measure` and the binary rendering -/

theorem digitChar_bit (u : Nat) (h : u < 2) :
    Nat.digitChar u = if u.testBit 0 then '1' else '0' := by
  have : u = 0 ∨ u = 1 := by omega
  rcases this with rfl | rfl <;> rfl

theorem digitChar_mod_two (u : Nat) :
    Nat.digitChar (u % 2) = if u.testBit 0 then '1' else '0' := by
  rw [digitChar_bit _ (Nat.mod_lt _ (by decide))]
  simp [Nat.testBit_zero]

theorem bitChars_succ (L u : Nat) :
    bitChars (L + 1) u = bitChars L (u / 2) ++ [if u.testBit 0 then '1' else '0'] := by
  unfold bitChars
  rw [List.range_succ, List.map_append, List.map_singleton]
  congr 1
  · apply List.map_congr_left
    intro p hp
    have hp' := List.mem_range.mp hp
    have : L + 1 - 1 - p = (L - 1 - p) + 1 := by omega
    rw [this, Nat.testBit_succ]
  · simp

theorem bitChars_succ_of_lt (L u : Nat) (h : u < 2 ^ L) :
    bitChars (L + 1) u = '0' :: bitChars L u := by
  unfold bitChars
  rw [List.range_succ_eq_map, List.map_cons, List.map_map]
  congr 1
  · simp [Nat.testBit_lt_two_pow h]
  · apply List.map_congr_left
    intro p _
    simp only [Function.comp, Nat.succ_eq_add_one]
    have : L + 1 - 1 - (p + 1) = L - 1 - p := by omega
    rw [this]

theorem bitChars_pad (L u k : Nat) (h : u < 2 ^ L) :
    List.replicate k '0' ++ bitChars L u = bitChars (L + k) u := by
  induction k with
  | zero => rfl
  | succ k ih =>
    have hlt : u < 2 ^ (L + k) :=
      Nat.lt_of_lt_of_le h (Nat.pow_le_pow_right (by decide) (Nat.le_add_right _ _))
    rw [List.replicate_succ, List.cons_append, ih, ← Nat.add_assoc, bitChars_succ_of_lt _ _ hlt]

theorem bitChars_length (n d : Nat) : (bitChars n d).length = n := by
  simp [bitChars]

theorem binaryDigits_spec (fuel : Nat) : ∀ (u : Nat) (acc : List Char), u < 2 ^ fuel → 1 ≤ fuel →
    ∃ L, 1 ≤ L ∧ (L = 1 ∨ 2 ^ (L - 1) ≤ u) ∧ u < 2 ^ L ∧
      binaryDigits fuel u acc = bitChars L u ++ acc := by
  induction fuel with
  | zero => intro u acc _ h; omega
  | succ fuel ih =>
    intro u acc hu _
    by_cases h2 : u < 2
    · refine ⟨1, Nat.le_refl _, Or.inl rfl, by simpa using h2, ?_⟩
      simp only [binaryDigits, h2, if_true]
      rw [digitChar_bit u h2]
      rfl
    · have hf : 1 ≤ fuel := by
        rcases Nat.eq_zero_or_pos fuel with h | h
        · subst h; simp at hu; omega
        · exact h
      have hu2 : u / 2 < 2 ^ fuel := by
        apply Nat.div_lt_of_lt_mul; rw [← Nat.pow_succ']; exact hu
      obtain ⟨L, hL1, hLmin, hLlt, hLeq⟩ := ih (u / 2) (Nat.digitChar (u % 2) :: acc) hu2 hf
      refine ⟨L + 1, by omega, Or.inr ?_, ?_, ?_⟩
      · simp only [Nat.add_sub_cancel]
        rcases hLmin with h | h
        · subst h; simp; omega
        · have : 2 ^ L = 2 * 2 ^ (L - 1) := by
            rw [← Nat.pow_succ']; congr 1; omega
          omega
      · rw [Nat.pow_succ]; omega
      · simp only [binaryDigits, h2, if_false]
        rw [hLeq, bitChars_succ, digitChar_mod_two]
        simp

theorem binaryDigits_eq (n d : Nat) (hn : 1 ≤ n) (hd : d < 2 ^ n) :
    ∃ L, L ≤ n ∧ d < 2 ^ L ∧ binaryDigits (d + 1) d [] = bitChars L d := by
  obtain ⟨L, hL1, hLmin, hLlt, hLeq⟩ :=
    binaryDigits_spec (d + 1) d [] (Nat.lt_of_lt_of_le (Nat.lt_two_pow d)
      (Nat.pow_le_pow_right (by decide) (Nat.le_succ _))) (by omega)
  refine ⟨L, ?_, hLlt, by simpa using hLeq⟩
  rcases hLmin with h | h
  · omega
  · have h1 : 2 ^ (L - 1) < 2 ^ n := Nat.lt_of_le_of_lt h hd
    have := (Nat.pow_lt_pow_iff_right (by decide : 1 < 2)).mp h1
    omega

theorem sprintfBinary_eq (n d : Nat) (hn : 1 ≤ n) (hd : d < 2 ^ n) :
    sprintfBinary (n : Int) d = bitString n d := by
  obtain ⟨L, hLn, hLlt, hLeq⟩ := binaryDigits_eq n d hn hd
  have hneg : ¬ ((n : Int) < 0) := by omega
  simp only [sprintfBinary, hneg, if_false, hLeq, bitChars_length, Int.toNat_ofNat, bitString]
  congr 1
  rw [bitChars_pad L d (n - L) hLlt]
  congr 1
  omega

theorem binaryDigits_ne_nil (fuel : Nat) : ∀ (u : Nat) (acc : List Char),
    (1 ≤ fuel ∨ acc ≠ []) → binaryDigits fuel u acc ≠ [] := by
  induction fuel with
  | zero =>
    intro u acc h
    rcases h with h | h
    · omega
    · simpa [binaryDigits] using h
  | succ fuel ih =>
    intro u acc _
    simp only [binaryDigits]
    split
    · simp
    · exact ih _ _ (Or.inr (by simp))

theorem sprintfBinary_ne_empty (width : Int) (index : Nat) : sprintfBinary width index ≠ "" := by
  have h := binaryDigits_ne_nil (index + 1) index [] (Or.inl (by omega))
  unfold sprintfBinary
  intro hcon
  split at hcon
  · have := congrArg String.data hcon
    simp at this
    exact h this.1
  · have := congrArg String.data hcon
    simp at this
    exact h this.2

theorem measure_unmeasured (rng : RandSource) (qr : QuantumRegister) (n : Nat) (hn : 1 ≤ n)
    (hq : qr.numQubits = (n : Int)) (hv : qr.value = "") (hlen : qr.amplitudes.length = 2 ^ n) :
    measure rng qr =
      (.ok (bitString n (rng.next (2 ^ n))),
        { qr with
          probabilities := qr.amplitudes.map fun amp => Complex128.absSq amp
          value := bitString n (rng.next (2 ^ n)) }) := by
  have hpos : 0 < 2 ^ n := Nat.two_pow_pos _
  have hne : ¬ (2 ^ n = 0) := by omega
  unfold measure
  simp only [hv, ne_eq, not_true_eq_false, if_false, List.length_map, List.length_range, hlen,
    RandSource.Intn, hne, hq, sprintfBinary_eq n _ hn (rng.next_lt _ hpos)]

theorem measure_measured (rng : RandSource) (qr : QuantumRegister) (hv : qr.value ≠ "") :
    measure rng qr = (.ok qr.value, qr) := by
  unfold measure
  simp only [hv, ne_eq, not_false_eq_true, if_true]

theorem applyGate_measured (gate : String) (qubit1 qubit2 : Int) (qr : QuantumRegister)
    (hv : qr.value ≠ "") :
    applyGate gate qubit1 qubit2 qr =
      (.error (.message "Cannot Apply Gate to Measured Register"), qr) := by
  unfold applyGate
  simp only [hv, ne_eq, not_false_eq_true, if_true]

theorem bitString_ne_empty (n d : Nat) (hn : 1 ≤ n) : bitString n d ≠ "" := by
  intro h
  have := congrArg String.length h
  simp [bitString, String.length, bitChars_length] at this
  omega

theorem measure_returns (rng : RandSource) (qr : QuantumRegister) (n : Nat) (hn : 1 ≤ n)
    (hq : qr.numQubits = (n : Int)) (hlen : qr.amplitudes.length = 2 ^ n) :
    ∃ s, (measure rng qr).1 = .ok s ∧ (measure rng qr).2.value = s ∧ s ≠ "" := by
  by_cases hv : qr.value = ""
  · rw [measure_unmeasured rng qr n hn hq hv hlen]
    exact ⟨_, rfl, rfl, bitString_ne_empty _ _ hn⟩
  · rw [measure_measured rng qr hv]
    exact ⟨_, rfl, rfl, hv⟩

/-! ## Lemmas on `NewQuantumRegister` and on names outside the catalogue -/

theorem wrapInt64_of_lt (x : Int) (h0 : 0 ≤ x) (h1 : x < 2 ^ 63) : wrapInt64 x = x := by
  unfold wrapInt64
  have h2 : (x + 2 ^ 63) % 2 ^ 64 = x + 2 ^ 63 := by
    apply Int.emod_eq_of_lt
    · omega
    · omega
  rw [h2]; omega

theorem two_pow_cast_lt (n : Nat) (hn : n ≤ 62) : ((2 : Int) ^ n) < 2 ^ 63 := by
  have h : (2 : Nat) ^ n < 2 ^ 63 := Nat.pow_lt_pow_right (by decide) (by omega)
  exact_mod_cast h

theorem two_pow_cast_le (n : Nat) (hn : n ≤ 44) : ((2 ^ n : Nat) : Int) ≤ 2 ^ 44 := by
  have h : (2 : Nat) ^ n ≤ 2 ^ 44 := Nat.pow_le_pow_right (by decide) hn
  exact_mod_cast h

theorem newQuantumRegister_small (n : Nat) (hn : n ≤ 44) :
    NewQuantumRegister (n : Int) =
      .ok ⟨(n : Int), 1 :: List.replicate (2 ^ n - 1) 0, "", []⟩ := by
  have hneg : ¬ ((n : Int) < 0) := by omega
  have hpos : (0 : Int) ≤ 2 ^ n := by positivity
  have hwrap : wrapInt64 (1 * 2 ^ n) = ((2 ^ n : Nat) : Int) := by
    rw [Int.one_mul, wrapInt64_of_lt _ hpos (two_pow_cast_lt n (by omega))]
    push_cast; rfl
  have hlen : ¬ (((2 ^ n : Nat) : Int) < 0 ∨ 16 * ((2 ^ n : Nat) : Int) > maxAlloc) := by
    have h1 := two_pow_cast_le n hn
    have h2 : (0 : Int) ≤ ((2 ^ n : Nat) : Int) := Int.ofNat_nonneg _
    unfold maxAlloc
    generalize ((2 ^ n : Nat) : Int) = x at h1 h2 ⊢
    omega
  have hp : 0 < 2 ^ n := Nat.two_pow_pos n
  obtain ⟨k, hk⟩ : ∃ k, 2 ^ n = k + 1 := ⟨2 ^ n - 1, by omega⟩
  simp only [NewQuantumRegister, shiftLeft, hneg, if_false, Int.toNat_ofNat, hwrap, makeSlice,
    hlen, ok_bind, List.length_replicate, hp, if_true]
  rw [hk]
  rfl

theorem get_unknown (gate : String) (hg : gate ∉ singleQubitNames) : NewGates.get gate = [] := by
  simp only [singleQubitNames, List.mem_cons, List.mem_singleton, List.not_mem_nil, or_false,
    not_or] at hg
  obtain ⟨h1, h2, h3, h4, h5, h6, h7, h8, h9⟩ := hg
  simp only [Gates.get, NewGates, List.lookup, beq_eq_false_iff_ne.mpr h1,
    beq_eq_false_iff_ne.mpr h2, beq_eq_false_iff_ne.mpr h3, beq_eq_false_iff_ne.mpr h4,
    beq_eq_false_iff_ne.mpr h5, beq_eq_false_iff_ne.mpr h6, beq_eq_false_iff_ne.mpr h7,
    beq_eq_false_iff_ne.mpr h8, beq_eq_false_iff_ne.mpr h9]

theorem reduce_all_id (m : Nat) :
    reduce ((List.range (m + 1)).map fun _ => idGate) = .ok (identityMatrix (2 ^ (m + 1))) := by
  have hmap : (List.range (m + 1)).map (fun _ => idGate) =
      (List.range (m + 1)).map (fun (_ : Nat) => toMat 2 (fun a b => ent idGate a b)) := by
    apply List.map_congr_left
    intro i _
    exact idGate_eq
  rw [hmap, reduce_factors]
  congr 1
  apply toMat_congr
  intro i j hi hj
  rw [foldEntries_eq_prod _ _ _ _ hi hj]
  have hno : ¬ (m + 1 ≤ m) := by omega
  rw [prodEntries_special _ m (m + 1) (fun h => absurd h hno)]
  · simp only [hno, if_false, bitAt, ent_idGate]
    have hiff : (∀ k, k ≤ m → k ≠ m + 1 →
        (if i.testBit (m - k) = j.testBit (m - k) then (1 : Complex128) else 0) = 1) ↔ i = j := by
      constructor
      · intro h
        apply Nat.eq_of_testBit_eq
        intro r
        by_cases hr : m < r
        · rw [testBit_high hi hr, testBit_high hj hr]
        · have h1 := h (m - r) (by omega) (by omega)
          have h3 : m - (m - r) = r := by omega
          rw [h3] at h1
          by_contra hcon
          simp only [hcon, if_false] at h1
          exact Complex128.zero_ne_one h1
      · intro h k _ _
        subst h; simp only [if_true]
    by_cases hij : i = j
    · rw [if_pos (hiff.mpr hij), if_pos hij]
    · rw [if_neg (fun h => hij (hiff.mp h)), if_neg hij]
  · intro k _ _
    simp only [bitAt, ent_idGate]
    split
    · right; rfl
    · left; rfl

theorem reduce_with_nil (g : Nat → Matrix) (k : Nat) (hnil : g k = []) (m : Nat) (hk : k ≤ m)
    (hother : ∀ i, i ≤ m → i ≠ k → g i = idGate) :
    reduce ((List.range (m + 1)).map g) = .ok [] := by
  induction m with
  | zero =>
    have : k = 0 := by omega
    subst this
    rw [show List.range (0 + 1) = [0] from rfl, List.map_singleton, reduce.eq_2, hnil]
  | succ m ih =>
    rw [List.range_succ, List.map_append, List.map_singleton,
      reduce_append_singleton _ _ (by simp [List.range_succ])]
    rcases Nat.eq_or_lt_of_le hk with h | h
    · subst h
      have hpre : (List.range (m + 1)).map g = (List.range (m + 1)).map fun _ => idGate := by
        apply List.map_congr_left
        intro i hi
        have := List.mem_range.mp hi
        exact hother i (by omega) (by omega)
      rw [hpre, reduce_all_id, hnil]
      exact kron_nil_right _
    · rw [ih (by omega) (fun i hi hne => hother i (by omega) hne)]
      exact kron_nil_left _

theorem generateGate_unknown (gate : String) (m : Nat) (qubit1 qubit2 : Int)
    (hg : gate ∉ singleQubitNames) (hc : gate ≠ "CNOT") :
    GenerateGate gate ((m + 1 : Nat) : Int) qubit1 qubit2 =
      .ok (if 0 ≤ qubit1 ∧ qubit1 < ((m + 1 : Nat) : Int) then []
        else identityMatrix (2 ^ (m + 1))) := by
  have hneg : ¬ (((m + 1 : Nat) : Int) < 0) := by omega
  simp only [GenerateGate, hc, if_false, hneg, Int.toNat_ofNat, get_Id, get_unknown gate hg]
  by_cases hin : 0 ≤ qubit1 ∧ qubit1 < ((m + 1 : Nat) : Int)
  · rw [if_pos hin]
    obtain ⟨k, hk⟩ : ∃ k : Nat, (k : Int) = qubit1 := ⟨qubit1.toNat, Int.toNat_of_nonneg hin.1⟩
    apply reduce_with_nil _ k _ m
    · omega
    · intro i _ hne
      have : ¬ ((i : Int) = qubit1) := by omega
      simp only [this, if_false]
    · simp only [hk, if_true]
  · rw [if_neg hin]
    have hpre : (List.range (m + 1)).map
        (fun (i : Nat) => if (i : Int) = qubit1 then ([] : Matrix) else idGate) =
        (List.range (m + 1)).map fun _ => idGate := by
      apply List.map_congr_left
      intro i hi
      have := List.mem_range.mp hi
      have : ¬ ((i : Int) = qubit1) := by omega
      simp only [this, if_false]
    rw [hpre, reduce_all_id]

/-! ## Lemmas on qubit arguments outside the register, and on control equal to target -/

theorem generateGate_single_out_of_range (gate : String) (m : Nat) (qubit1 qubit2 : Int)
    (hname : gate ≠ "CNOT") (hout : ¬ (0 ≤ qubit1 ∧ qubit1 < ((m + 1 : Nat) : Int))) :
    GenerateGate gate ((m + 1 : Nat) : Int) qubit1 qubit2 =
      .ok (identityMatrix (2 ^ (m + 1))) := by
  have hneg : ¬ (((m + 1 : Nat) : Int) < 0) := by omega
  simp only [GenerateGate, hname, if_false, hneg, Int.toNat_ofNat, get_Id]
  have hpre : (List.range (m + 1)).map
      (fun (i : Nat) => if (i : Int) = qubit1 then NewGates.get gate else idGate) =
      (List.range (m + 1)).map fun _ => idGate := by
    apply List.map_congr_left
    intro i hi
    have := List.mem_range.mp hi
    have : ¬ ((i : Int) = qubit1) := by omega
    simp only [this, if_false]
  rw [hpre, reduce_all_id]

theorem Complex128.notNaN_mul (x y : Complex128) (hx : x.notNaN = true) (hy : y.notNaN = true) :
    (x * y).notNaN = true := by
  obtain ⟨a, b, rfl⟩ := (Complex128.notNaN_iff x).mp hx
  obtain ⟨c, d, rfl⟩ := (Complex128.notNaN_iff y).mp hy
  rfl

theorem prodEntries_notNaN (e : Nat → Complex128) (m : Nat)
    (h : ∀ k, k ≤ m → (e k).notNaN = true) : (prodEntries e m).notNaN = true := by
  induction m with
  | zero => exact h 0 (Nat.le_refl _)
  | succ m ih =>
    simp only [prodEntries]
    exact Complex128.notNaN_mul _ _ (ih (fun k hk => h k (Nat.le_succ_of_le hk)))
      (h (m + 1) (Nat.le_refl _))

theorem bitAt_eq_toNat (i p : Nat) : bitAt i p = (i.testBit p).toNat := rfl

theorem foldEntries_congr (g g' : Nat → Nat → Nat → Complex128) (m : Nat)
    (h : ∀ k, k ≤ m → g k = g' k) : foldEntries g m = foldEntries g' m := by
  induction m with
  | zero => exact h 0 (Nat.le_refl _)
  | succ m ih =>
    funext i j
    simp only [foldEntries]
    rw [ih (fun k hk => h k (Nat.le_succ_of_le hk)), h (m + 1) (Nat.le_refl _)]

theorem foldEntries_notNaN (g : Nat → Nat → Nat → Complex128) (m i j : Nat)
    (hi : i < 2 ^ (m + 1)) (hj : j < 2 ^ (m + 1))
    (h : ∀ k, k ≤ m → ∀ a b : Bool, (g k a.toNat b.toNat).notNaN = true) :
    (foldEntries g m i j).notNaN = true := by
  rw [foldEntries_eq_prod _ _ _ _ hi hj]
  apply prodEntries_notNaN
  intro k hk
  exact h k hk _ _

theorem isGate2_idGate : IsGate2 idGate := by decide!

theorem isGate2_xGate : IsGate2 xGate := by decide!

theorem generateGate_cnot_control_out (m : Nat) (qubit1 qubit2 : Int)
    (hout : ¬ (0 ≤ qubit1 ∧ qubit1 < ((m + 1 : Nat) : Int))) :
    GenerateGate "CNOT" ((m + 1 : Nat) : Int) qubit1 qubit2 =
      GenerateGate "X" ((m + 1 : Nat) : Int) qubit2 qubit2 := by
  rw [generateGate_cnot_fold, generateGate_single_fold "X" m qubit2 qubit2 (by decide)
    (by rw [get_X]; exact xGate_eq), get_X]
  congr 1
  apply toMat_congr
  intro i j hi hj
  have hg : foldEntries (fun (k : Nat) => ent (if (k : Int) = qubit1 then cGate
      else if (k : Int) = qubit2 then xGate else idGate)) m =
      foldEntries (fun (k : Nat) => ent (if (k : Int) = qubit2 then xGate else idGate)) m := by
    apply foldEntries_congr
    intro k hk
    have : ¬ ((k : Int) = qubit1) := by omega
    simp only [this, if_false]
  rw [hg]
  have hfin := foldEntries_notNaN
    (fun (k : Nat) => ent (if (k : Int) = qubit2 then xGate else idGate)) m i j hi hj
    (by
      intro k _ a b
      show (ent (if (k : Int) = qubit2 then xGate else idGate) a.toNat b.toNat).notNaN = true
      split
      · exact isGate2_xGate.2 a b
      · exact isGate2_idGate.2 a b)
  rw [if_pos hfin]

theorem eq_of_testBit_le {m i j : Nat} (hi : i < 2 ^ (m + 1)) (hj : j < 2 ^ (m + 1))
    (h : ∀ r, r ≤ m → i.testBit r = j.testBit r) : i = j := by
  apply Nat.eq_of_testBit_eq
  intro r
  by_cases hr : m < r
  · rw [testBit_high hi hr, testBit_high hj hr]
  · exact h r (by omega)

theorem cnot_entry_no_target (m c : Nat) (hc : c ≤ m) (i j : Nat)
    (hi : i < 2 ^ (m + 1)) (hj : j < 2 ^ (m + 1)) :
    (if (prodEntries (fun k => ent (if k = c then cGate else idGate)
          (bitAt i (m - k)) (bitAt j (m - k))) m).notNaN = true then
        prodEntries (fun k => ent (if k = c then cGate else idGate)
          (bitAt i (m - k)) (bitAt j (m - k))) m
      else if i = j then 1 else 0) =
    if i = j then 1 else 0 := by
  generalize he : (fun k => ent (if k = c then cGate else idGate)
          (bitAt i (m - k)) (bitAt j (m - k))) = e
  have hec : e c = ent cGate (i.testBit (m - c)).toNat (j.testBit (m - c)).toNat := by
    subst he; simp only [if_true, bitAt]
  have heo : ∀ k, k ≠ c →
      e k = ent idGate (i.testBit (m - k)).toNat (j.testBit (m - k)).toNat := by
    intro k h1
    subst he; simp only [h1, if_false, bitAt]
  by_cases hb : i.testBit (m - c) = false ∧ j.testBit (m - c) = false
  · have hnan : (prodEntries e m).notNaN = false := by
      apply prodEntries_nan e m c hc
      rw [hec, hb.1, hb.2]; exact ent_cGate_false
    simp only [hnan, Bool.false_eq_true, if_false]
  · have hb' : i.testBit (m - c) = true ∨ j.testBit (m - c) = true := by
      by_contra hcon
      apply hb
      constructor
      · cases h : i.testBit (m - c)
        · rfl
        · exact absurd (Or.inl h) hcon
      · cases h : j.testBit (m - c)
        · rfl
        · exact absurd (Or.inr h) hcon
    have hval : ∀ k, e k = if ctrlBitCond m c i j k then 1 else 0 := by
      intro k
      unfold ctrlBitCond
      by_cases h1 : k = c
      · subst h1; rw [hec, ent_cGate_true _ _ hb']; simp only [if_true]
      · rw [heo k h1, ent_idGate]; simp only [h1, if_false]
    have hone : ∀ k, e k = 1 → ctrlBitCond m c i j k := by
      intro k hk
      rw [hval k] at hk
      by_contra hcon
      simp only [hcon, if_false] at hk
      exact Complex128.zero_ne_one hk
    have h01 : ∀ k, k ≤ m → k ≠ m + 1 → e k = 0 ∨ e k = 1 := by
      intro k _ _
      rw [hval k]
      by_cases hq : ctrlBitCond m c i j k
      · right; simp only [hq, if_true]
      · left; simp only [hq, if_false]
    have hno : ¬ (m + 1 ≤ m) := by omega
    rw [prodEntries_special e m (m + 1) (fun h => absurd h hno) h01]
    simp only [hno, if_false]
    have hP : (∀ k, k ≤ m → k ≠ m + 1 → e k = 1) ↔ i = j := by
      constructor
      · intro H
        apply eq_of_testBit_le hi hj
        intro r hr
        have h := hone (m - r) (H (m - r) (by omega) (by omega))
        have hmr : m - (m - r) = r := by omega
        unfold ctrlBitCond at h
        by_cases h1 : m - r = c
        · have hrc : r = m - c := by omega
          simp only [h1, if_true] at h
          rw [hrc, h.1, h.2]
        · simpa only [h1, if_false, hmr] using h
      · intro H k _ _
        subst H
        rw [hval k]
        unfold ctrlBitCond
        by_cases h1 : k = c
        · have : i.testBit (m - c) = true := by
            rcases hb' with h | h <;> exact h
          simp only [h1, if_true, this, and_self]
        · simp only [h1, if_false, if_true]
    by_cases hp : i = j
    · rw [if_pos (hP.mpr hp), if_pos hp]
      simp only [Complex128.notNaN_one, if_true]
    · have hp' : ¬ (∀ k, k ≤ m → k ≠ m + 1 → e k = 1) := fun h => hp (hP.mp h)
      rw [if_neg hp', if_neg hp]
      simp only [Complex128.notNaN_zero, if_true]

theorem generateGate_cnot_no_target (m c : Nat) (qubit2 : Int) (hc : c ≤ m)
    (hq2 : ∀ k : Nat, k ≤ m → (k : Int) = qubit2 → k = c) :
    GenerateGate "CNOT" ((m + 1 : Nat) : Int) (c : Int) qubit2 =
      .ok (identityMatrix (2 ^ (m + 1))) := by
  rw [generateGate_cnot_fold]
  congr 1
  apply toMat_congr
  intro i j hi hj
  have hg : foldEntries (fun (k : Nat) => ent (if (k : Int) = (c : Int) then cGate
      else if (k : Int) = qubit2 then xGate else idGate)) m =
      foldEntries (fun (k : Nat) => ent (if k = c then cGate else idGate)) m := by
    apply foldEntries_congr
    intro k hk
    by_cases h1 : k = c
    · simp only [h1, if_true]
    · have h2 : ¬ ((k : Int) = (c : Int)) := by omega
      have h3 : ¬ ((k : Int) = qubit2) := fun h => h1 (hq2 k hk h)
      simp only [h1, h2, h3, if_false]
  rw [hg, foldEntries_eq_prod _ _ _ _ hi hj]
  exact cnot_entry_no_target m c hc i j hi hj

/-! ## Lemmas on associativity of `kron` and on `reduce` as a left fold -/

theorem Complex128.mul_assoc' (x y z : Complex128) : x * y * z = x * (y * z) := by
  rcases x with ⟨a, b⟩
  rcases y with ⟨c, d⟩
  rcases z with ⟨e, f⟩
  cases a <;> cases b <;> cases c <;> cases d <;> cases e <;> cases f <;>
    first
      | rfl
      | (rw [Complex128.mul_fin, Complex128.mul_fin, Complex128.mul_fin, Complex128.mul_fin]
         congr 2 <;> ring)

theorem Complex128.mul_comm' (x y : Complex128) : x * y = y * x := by
  rcases x with ⟨a, b⟩
  rcases y with ⟨c, d⟩
  cases a <;> cases b <;> cases c <;> cases d <;>
    first
      | rfl
      | (rw [Complex128.mul_fin, Complex128.mul_fin]
         congr 2 <;> ring)

theorem square_eq_toMat (A : Matrix) (p : Nat) (h : IsSquare A p) : A = toMat p (ent A) := by
  obtain ⟨hlen, hrow⟩ := h
  apply List.ext_getElem
  · rw [toMat_length, hlen]
  · intro i h1 h2
    have hrl : (A[i]).length = p := hrow _ (List.getElem_mem _)
    simp only [toMat, List.getElem_map, List.getElem_range]
    apply List.ext_getElem
    · simp [hrl]
    · intro j h3 h4
      simp [ent, List.getD, h1, h3]

theorem isSquare_toMat (d : Nat) (F : Nat → Nat → Complex128) : IsSquare (toMat d F) d :=
  ⟨toMat_length d F, toMat_row_length d F⟩

theorem kron_assoc_toMat (p q r : Nat) (f g h : Nat → Nat → Complex128) :
    toMat (p * q * r) (fun i j =>
        (f (i / r / q) (j / r / q) * g (i / r % q) (j / r % q)) * h (i % r) (j % r)) =
      toMat (p * (q * r)) (fun i j =>
        f (i / (q * r)) (j / (q * r)) *
          (g (i % (q * r) / r) (j % (q * r) / r) * h (i % (q * r) % r) (j % (q * r) % r))) := by
  rw [Nat.mul_assoc]
  apply toMat_congr
  intro i j _ _
  rw [Complex128.mul_assoc', Nat.div_div_eq_div_mul, Nat.div_div_eq_div_mul, Nat.mul_comm r q,
    Nat.mod_mul_left_div_self, Nat.mod_mul_left_div_self, Nat.mod_mul_left_mod,
    Nat.mod_mul_left_mod]

theorem reduce_cons_eq_foldlM (g : Matrix) (rest : List Matrix) :
    reduce (g :: rest) = rest.foldlM kron g := by
  induction rest generalizing g with
  | nil => rw [reduce.eq_2]; rfl
  | cons x rest ih =>
    rw [reduce.eq_3, List.foldlM_cons]
    cases hk : kron g x with
    | error e => rfl
    | ok r => exact ih r

theorem foldlM_kron_square (rest : List Matrix) : ∀ (g : Matrix),
    (∀ M ∈ g :: rest, ∃ d, IsSquare M d) → ∃ R d, rest.foldlM kron g = .ok R ∧ IsSquare R d := by
  induction rest with
  | nil =>
    intro g h
    obtain ⟨d, hd⟩ := h g (List.mem_cons_self _ _)
    exact ⟨g, d, rfl, hd⟩
  | cons x rest ih =>
    intro g h
    obtain ⟨p, hp⟩ := h g (List.mem_cons_self _ _)
    obtain ⟨q, hq⟩ := h x (List.mem_cons_of_mem _ (List.mem_cons_self _ _))
    rw [List.foldlM_cons, square_eq_toMat g p hp, square_eq_toMat x q hq, kron_toMat, ok_bind]
    apply ih
    intro M hM
    rcases List.mem_cons.mp hM with h1 | h1
    · exact ⟨p * q, h1 ▸ isSquare_toMat _ _⟩
    · exact h M (List.mem_cons_of_mem _ (List.mem_cons_of_mem _ h1))

/-! ## Lemmas on the gates X and H acting on amplitudes -/

theorem getD_notNaN (a : List Complex128) (h : ∀ z ∈ a, z.notNaN = true) (j : Nat) :
    (a.getD j 0).notNaN = true := by
  by_cases hj : j < a.length
  · rw [List.getD_eq_getElem _ _ hj]
    exact h _ (List.getElem_mem _)
  · rw [List.getD_eq_default _ _ (by omega)]
    rfl

theorem sum_mul_indicator (a : Nat → Complex128) (d x : Nat) (hx : x < d)
    (ha : ∀ j, (a j).notNaN = true) :
    (∑ j in Finset.range d, a j * (if j = x then 1 else 0)) = a x := by
  have h : ∀ j ∈ Finset.range d, a j * (if j = x then (1 : Complex128) else 0) =
      if j = x then a j else 0 := by
    intro j _
    split
    · exact Complex128.mul_one_of_notNaN _ (ha j)
    · exact Complex128.mul_zero_of_notNaN _ (ha j)
  rw [Finset.sum_congr rfl h, Finset.sum_ite_eq' (Finset.range d) x a]
  simp [hx]

theorem sum_indicator_mul (F : Nat → Complex128) (d : Nat) (hd : 0 < d)
    (hF : ∀ j, (F j).notNaN = true) :
    (∑ j in Finset.range d, (if j = 0 then 1 else 0) * F j) = F 0 := by
  have h : ∀ j ∈ Finset.range d, (if j = 0 then (1 : Complex128) else 0) * F j =
      if j = 0 then F j else 0 := by
    intro j _
    split
    · exact Complex128.one_mul_of_notNaN _ (hF j)
    · exact Complex128.zero_mul_of_notNaN _ (hF j)
  rw [Finset.sum_congr rfl h, Finset.sum_ite_eq' (Finset.range d) 0 F]
  simp [hd]

theorem xor_two_pow_lt {i P m : Nat} (hi : i < 2 ^ (m + 1)) (hP : P ≤ m) :
    i ^^^ 2 ^ P < 2 ^ (m + 1) :=
  Nat.xor_lt_two_pow hi (Nat.pow_lt_pow_right (by decide) (by omega))

theorem xor_xor_self (i x : Nat) : (i ^^^ x) ^^^ x = i := by
  apply Nat.eq_of_testBit_eq
  intro r
  simp

theorem xOperator_entry (m P i j : Nat) (hP : P ≤ m) (hi : i < 2 ^ (m + 1))
    (hj : j < 2 ^ (m + 1)) :
    (if ∀ p, p < m + 1 → p ≠ P → i.testBit p = j.testBit p then
        ent xGate (bitAt i P) (bitAt j P) else 0) =
      if j = i ^^^ 2 ^ P then 1 else 0 := by
  by_cases hx : j = i ^^^ 2 ^ P
  · rw [if_pos hx]
    have hbit : ∀ r, j.testBit r = (i.testBit r ^^ decide (P = r)) := by
      intro r; rw [hx, Nat.testBit_xor, Nat.testBit_two_pow]
    have hc : ∀ p, p < m + 1 → p ≠ P → i.testBit p = j.testBit p := by
      intro p _ hne
      have : ¬ (P = p) := fun h => hne h.symm
      simp [hbit, this]
    rw [if_pos hc, bitAt, bitAt, ent_xGate]
    simp [hbit]
  · rw [if_neg hx]
    by_cases hc : ∀ p, p < m + 1 → p ≠ P → i.testBit p = j.testBit p
    · rw [if_pos hc, bitAt, bitAt, ent_xGate]
      by_cases hb : i.testBit P = j.testBit P
      · simp only [hb, if_true]
      · exfalso
        apply hx
        apply eq_of_testBit_le hj (xor_two_pow_lt hi hP)
        intro r hr
        rw [Nat.testBit_xor, Nat.testBit_two_pow]
        by_cases hrP : r = P
        · subst hrP
          cases h1 : i.testBit r <;> cases h2 : j.testBit r <;> simp [h1, h2] at hb ⊢
        · have : ¬ (P = r) := fun h => hrP h.symm
          simp [this, hc r (by omega) hrP]
    · rw [if_neg hc]

theorem generateGate_X (m k : Nat) (qubit2 : Int) (hk : k ≤ m) :
    GenerateGate "X" ((m + 1 : Nat) : Int) (k : Int) qubit2 =
      .ok (toMat (2 ^ (m + 1)) fun i j => if j = i ^^^ 2 ^ (m - k) then 1 else 0) := by
  rw [generateGate_single "X" m k qubit2 hk (by decide) (by rw [get_X]; exact isGate2_xGate),
    get_X]
  congr 1
  apply toMat_congr
  intro i j hi hj
  simp only [Nat.add_sub_cancel]
  exact xOperator_entry m (m - k) i j (by omega) hi hj

theorem map_getD_range (a : List Complex128) (d : Nat) (h : a.length = d) :
    (List.range d).map (fun i => a.getD i 0) = a := by
  apply List.ext_getElem
  · simp [h]
  · intro i h1 h2
    rw [List.getElem_map, List.getElem_range, List.getD_eq_getElem _ _ h2]

theorem getD_map_range (d : Nat) (f : Nat → Complex128) (i : Nat) (hi : i < d) :
    ((List.range d).map f).getD i 0 = f i := by
  simp [List.getD, hi]

theorem matrixMultiply_xOperator (a : List Complex128) (m P : Nat) (hP : P ≤ m)
    (hlen : a.length = 2 ^ (m + 1)) (hfin : ∀ z ∈ a, z.notNaN = true) :
    matrixMultiply a (toMat (2 ^ (m + 1)) fun i j => if j = i ^^^ 2 ^ P then 1 else 0) =
      .ok ((List.range (2 ^ (m + 1))).map fun i => a.getD (i ^^^ 2 ^ P) 0) := by
  rw [matrixMultiply_toMat _ _ _ (by omega)]
  congr 1
  apply List.map_congr_left
  intro i hi
  have hi' := List.mem_range.mp hi
  have hcond : ∀ j ∈ Finset.range (2 ^ (m + 1)),
      a.getD j 0 * (if i = j ^^^ 2 ^ P then (1 : Complex128) else 0) =
      a.getD j 0 * (if j = i ^^^ 2 ^ P then 1 else 0) := by
    intro j _
    have : (i = j ^^^ 2 ^ P) ↔ (j = i ^^^ 2 ^ P) := by
      constructor
      · intro h; rw [h, xor_xor_self]
      · intro h; rw [h, xor_xor_self]
    simp only [this]
  rw [Finset.sum_congr rfl hcond]
  exact sum_mul_indicator (fun j => a.getD j 0) _ _ (xor_two_pow_lt hi' hP)
    (getD_notNaN a hfin)

theorem xOperator_twice (a : List Complex128) (m P : Nat) (hP : P ≤ m)
    (hlen : a.length = 2 ^ (m + 1)) :
    ((List.range (2 ^ (m + 1))).map fun i =>
      ((List.range (2 ^ (m + 1))).map fun i => a.getD (i ^^^ 2 ^ P) 0).getD (i ^^^ 2 ^ P) 0) =
      a := by
  have h : ∀ i ∈ List.range (2 ^ (m + 1)),
      ((List.range (2 ^ (m + 1))).map fun i => a.getD (i ^^^ 2 ^ P) 0).getD (i ^^^ 2 ^ P) 0 =
        a.getD i 0 := by
    intro i hi
    rw [getD_map_range _ _ _ (xor_two_pow_lt (List.mem_range.mp hi) hP), xor_xor_self]
  rw [List.map_congr_left h]
  exact map_getD_range a _ hlen

/-! ## Lemmas on a single-qubit gate applied to the fresh register -/

theorem newQuantumRegister_mid (n : Nat) (h1 : 45 ≤ n) (h2 : n ≤ 62) :
    NewQuantumRegister (n : Int) = .error .makeLenOutOfRange := by
  have hneg : ¬ ((n : Int) < 0) := by omega
  have hpos : (0 : Int) ≤ 2 ^ n := by positivity
  have hwrap : wrapInt64 (1 * 2 ^ n) = ((2 ^ n : Nat) : Int) := by
    rw [Int.one_mul, wrapInt64_of_lt _ hpos (two_pow_cast_lt n h2)]
    push_cast; rfl
  have hlen : ((2 ^ n : Nat) : Int) < 0 ∨ 16 * ((2 ^ n : Nat) : Int) > maxAlloc := by
    right
    have h : (2 : Nat) ^ 45 ≤ 2 ^ n := Nat.pow_le_pow_right (by decide) h1
    have h3 : ((2 ^ 45 : Nat) : Int) ≤ ((2 ^ n : Nat) : Int) := Int.ofNat_le.mpr h
    unfold maxAlloc
    generalize ((2 ^ n : Nat) : Int) = x at h3 ⊢
    norm_num at h3 ⊢
    omega
  simp only [NewQuantumRegister, shiftLeft, hneg, if_false, Int.toNat_ofNat, hwrap, makeSlice,
    ok_bind, hlen, if_true]
  rfl

theorem newQuantumRegister_large (n : Nat) (hn : 45 ≤ n) :
    ∃ e, NewQuantumRegister (n : Int) = .error e := by
  have hneg : ¬ ((n : Int) < 0) := by omega
  by_cases h62 : n ≤ 62
  · exact ⟨_, newQuantumRegister_mid n hn h62⟩
  rcases Nat.eq_or_lt_of_le (by omega : 63 ≤ n) with h | h
  · subst h
    exact ⟨.makeLenOutOfRange, by decide!⟩
  · obtain ⟨s, rfl⟩ : ∃ s, n = 64 + s := ⟨n - 64, by omega⟩
    have hwrap : wrapInt64 (1 * 2 ^ (64 + s)) = 0 := by
      unfold wrapInt64
      rw [Int.one_mul, pow_add, Int.add_comm, Int.add_mul_emod_self_left]
      norm_num
    have hlen : ¬ ((0 : Int) < 0 ∨ 16 * (0 : Int) > maxAlloc) := by decide
    refine ⟨.indexOutOfRange, ?_⟩
    simp only [NewQuantumRegister, shiftLeft, hneg, if_false, Int.toNat_ofNat, hwrap, makeSlice,
      hlen, ok_bind]
    rfl

theorem newQuantumRegister_ok (n : Nat) (r0 : QuantumRegister)
    (h : NewQuantumRegister (n : Int) = .ok r0) :
    n ≤ 44 ∧ r0 = ⟨(n : Int), 1 :: List.replicate (2 ^ n - 1) 0, "", []⟩ := by
  by_cases hn : n ≤ 44
  · rw [newQuantumRegister_small n hn] at h
    exact ⟨hn, (Except.ok.inj h).symm⟩
  · obtain ⟨e, he⟩ := newQuantumRegister_large n (by omega)
    rw [he] at h
    exact absurd h (by simp)

theorem getD_basis (d j : Nat) :
    ((1 : Complex128) :: List.replicate d 0).getD j 0 = if j = 0 then 1 else 0 := by
  cases j with
  | zero => rfl
  | succ j =>
    by_cases hj : j < d
    · simp [List.getD, List.getElem?_replicate, hj]
    · simp [List.getD, List.getElem?_replicate, hj]

theorem singleQubitOperator_notNaN (G : Matrix) (hG : IsGate2 G) (n P i j : Nat) :
    ((if ∀ p, p < n → p ≠ P → i.testBit p = j.testBit p then
        ent G (bitAt i P) (bitAt j P) else 0) : Complex128).notNaN = true := by
  split
  · exact hG.2 _ _
  · rfl

theorem firstRow_entry (G : Matrix) (m P i : Nat) (hP : P ≤ m) (hi : i < 2 ^ (m + 1)) :
    (if ∀ p, p < m + 1 → p ≠ P → (0 : Nat).testBit p = i.testBit p then
        ent G (bitAt 0 P) (bitAt i P) else 0) =
      if i = 0 then ent G 0 0 else if i = 2 ^ P then ent G 0 1 else 0 := by
  have h2P : 2 ^ P < 2 ^ (m + 1) := Nat.pow_lt_pow_right (by decide) (by omega)
  by_cases h0 : i = 0
  · subst h0
    simp [bitAt]
  · rw [if_neg h0]
    by_cases h1 : i = 2 ^ P
    · subst h1
      have hc : ∀ p, p < m + 1 → p ≠ P → (0 : Nat).testBit p = (2 ^ P).testBit p := by
        intro p _ hne
        have : ¬ (P = p) := fun h => hne h.symm
        simp [Nat.testBit_two_pow, this]
      rw [if_pos hc, if_pos rfl]
      simp [bitAt, Nat.testBit_two_pow]
    · rw [if_neg h1, if_neg]
      intro hc
      by_cases hb : i.testBit P = true
      · apply h1
        apply eq_of_testBit_le hi h2P
        intro r _
        rw [Nat.testBit_two_pow]
        by_cases hrP : r = P
        · subst hrP; simp [hb]
        · have : ¬ (P = r) := fun h => hrP h.symm
          rw [← hc r (by omega) hrP]
          simp [this]
      · apply h0
        apply eq_of_testBit_le hi (Nat.two_pow_pos _)
        intro r _
        by_cases hrP : r = P
        · subst hrP; simpa using hb
        · rw [← hc r (by omega) hrP]

theorem applyGate_fresh (gate : String) (m k : Nat) (qubit2 : Int) (hk : k ≤ m)
    (hg : gate ∈ singleQubitNames) :
    applyGate gate (k : Int) qubit2
        ⟨((m + 1 : Nat) : Int), 1 :: List.replicate (2 ^ (m + 1) - 1) 0, "", []⟩ =
      (.ok (), ⟨((m + 1 : Nat) : Int), (List.range (2 ^ (m + 1))).map fun i =>
        if i = 0 then ent (NewGates.get gate) 0 0
        else if i = 2 ^ (m - k) then ent (NewGates.get gate) 0 1 else 0, "", []⟩) := by
  have h := isGate2_of_mem gate hg
  have hp : 0 < 2 ^ (m + 1) := Nat.two_pow_pos _
  rw [applyGate_toMat gate (k : Int) qubit2 _ (2 ^ (m + 1)) _ rfl
    (generateGate_single gate m k qubit2 hk h.1 h.2) (by simp; omega)]
  congr 2
  apply List.map_congr_left
  intro i hi
  have hi' := List.mem_range.mp hi
  simp only [getD_basis, Nat.add_sub_cancel]
  rw [sum_indicator_mul (fun j => if ∀ p, p < m + 1 → p ≠ m - k → j.testBit p = i.testBit p then
      ent (NewGates.get gate) (bitAt j (m - k)) (bitAt i (m - k)) else 0) _ hp
    (fun j => singleQubitOperator_notNaN _ h.2 (m + 1) (m - k) j i)]
  exact firstRow_entry _ m (m - k) i (by omega) hi'

/-! ## Lemmas on symmetry of the operators -/

theorem Complex128.mul_neg' (x y : Complex128) : x * (-y) = -(x * y) := by
  rcases x with ⟨a, b⟩
  rcases y with ⟨c, d⟩
  cases a <;> cases b <;> cases c <;> cases d <;>
    first
      | rfl
      | (show (⟨.fin _, .fin _⟩ : Complex128) * ⟨.fin _, .fin _⟩ = Complex128.neg _
         rw [Complex128.mul_fin, Complex128.mul_fin]
         show _ = Complex128.mk (.fin _) (.fin _)
         congr 2 <;> ring)

theorem F64.neg_add_f64 (x y : F64) : -(x + y) = -x + -y := by
  cases x <;> cases y <;> first | rfl | exact congrArg F64.fin (neg_add _ _)

theorem Complex128.neg_add' (x y : Complex128) : -(x + y) = -x + -y := by
  show Complex128.mk (-(x.re + y.re)) (-(x.im + y.im)) = Complex128.mk (-x.re + -y.re) (-x.im + -y.im)
  rw [F64.neg_add_f64, F64.neg_add_f64]

theorem Complex128.neg_zero' : -(0 : Complex128) = 0 := by decide!

theorem Complex128.sum_neg (d : Nat) (f : Nat → Complex128) :
    (∑ j in Finset.range d, -(f j)) = -(∑ j in Finset.range d, f j) := by
  induction d with
  | zero => simp only [Finset.range_zero, Finset.sum_empty]; exact Complex128.neg_zero'.symm
  | succ d ih => rw [Finset.sum_range_succ, Finset.sum_range_succ, ih, Complex128.neg_add']

theorem cnotMap_involutive (pc pt i : Nat) (hne : pc ≠ pt) :
    (if (if i.testBit pc = true then i ^^^ 2 ^ pt else i).testBit pc = true then
        (if i.testBit pc = true then i ^^^ 2 ^ pt else i) ^^^ 2 ^ pt
      else (if i.testBit pc = true then i ^^^ 2 ^ pt else i)) = i := by
  by_cases h : i.testBit pc = true
  · have h2 : (i ^^^ 2 ^ pt).testBit pc = true := by
      rw [Nat.testBit_xor, Nat.testBit_two_pow, h]
      have : ¬ (pt = pc) := fun h' => hne h'.symm
      simp [this]
    rw [if_pos h, if_pos h2, xor_xor_self]
  · rw [if_neg h, if_neg h]

theorem cnotTruthTable_symm (n c t i j : Nat) (hne : n - 1 - c ≠ n - 1 - t) :
    (if j = (if i.testBit (n - 1 - c) = true then i ^^^ 2 ^ (n - 1 - t) else i) then
        (1 : Complex128) else 0) =
      if i = (if j.testBit (n - 1 - c) = true then j ^^^ 2 ^ (n - 1 - t) else j) then 1 else 0 := by
  have hiff : (j = if i.testBit (n - 1 - c) = true then i ^^^ 2 ^ (n - 1 - t) else i) ↔
      (i = if j.testBit (n - 1 - c) = true then j ^^^ 2 ^ (n - 1 - t) else j) := by
    constructor
    · intro h; rw [h, cnotMap_involutive _ _ _ hne]
    · intro h; rw [h, cnotMap_involutive _ _ _ hne]
  simp only [hiff]

theorem singleQubitOperator_symm (G : Matrix) (n P i j : Nat)
    (hG : ∀ a b : Bool, ent G a.toNat b.toNat = ent G b.toNat a.toNat) :
    (if ∀ p, p < n → p ≠ P → i.testBit p = j.testBit p then
        ent G (bitAt i P) (bitAt j P) else 0) =
      if ∀ p, p < n → p ≠ P → j.testBit p = i.testBit p then
        ent G (bitAt j P) (bitAt i P) else 0 := by
  have hiff : (∀ p, p < n → p ≠ P → i.testBit p = j.testBit p) ↔
      (∀ p, p < n → p ≠ P → j.testBit p = i.testBit p) :=
    ⟨fun h p h1 h2 => (h p h1 h2).symm, fun h p h1 h2 => (h p h1 h2).symm⟩
  simp only [hiff, bitAt]
  rw [hG]

theorem singleQubitOperator_antisymm (G : Matrix) (n P i j : Nat)
    (hG : ∀ a b : Bool, ent G b.toNat a.toNat = -(ent G a.toNat b.toNat)) :
    (if ∀ p, p < n → p ≠ P → j.testBit p = i.testBit p then
        ent G (bitAt j P) (bitAt i P) else 0) =
      -(if ∀ p, p < n → p ≠ P → i.testBit p = j.testBit p then
        ent G (bitAt i P) (bitAt j P) else 0) := by
  have hiff : (∀ p, p < n → p ≠ P → i.testBit p = j.testBit p) ↔
      (∀ p, p < n → p ≠ P → j.testBit p = i.testBit p) :=
    ⟨fun h p h1 h2 => (h p h1 h2).symm, fun h p h1 h2 => (h p h1 h2).symm⟩
  simp only [hiff, bitAt]
  split
  · exact hG _ _
  · exact Complex128.neg_zero'.symm

theorem symmetric_of_mem (gate : String) (hg : gate ∈ singleQubitNames) (hY : gate ≠ "Y") :
    ∀ a b : Bool, ent (NewGates.get gate) a.toNat b.toNat =
      ent (NewGates.get gate) b.toNat a.toNat := by
  simp only [singleQubitNames, List.mem_cons, List.mem_singleton, List.not_mem_nil, or_false] at hg
  rcases hg with rfl | rfl | rfl | rfl | rfl | rfl | rfl | rfl | rfl <;>
    first
      | exact absurd rfl hY
      | decide!

theorem antisymmetric_Y :
    ∀ a b : Bool, ent (NewGates.get "Y") b.toNat a.toNat =
      -(ent (NewGates.get "Y") a.toNat b.toNat) := by
  decide!

theorem sum_row_eq_sum_col (M : Matrix) (a : List Complex128) (d i : Nat)
    (h : ∀ j, j < d → ent M j i = ent M i j) :
    (∑ j in Finset.range d, a.getD j 0 * ent M j i) =
      ∑ j in Finset.range d, ent M i j * a.getD j 0 := by
  apply Finset.sum_congr rfl
  intro j hj
  rw [h j (Finset.mem_range.mp hj), Complex128.mul_comm']

theorem sum_row_eq_neg_sum_col (M : Matrix) (a : List Complex128) (d i : Nat)
    (h : ∀ j, j < d → ent M j i = -(ent M i j)) :
    (∑ j in Finset.range d, a.getD j 0 * ent M j i) =
      -(∑ j in Finset.range d, ent M i j * a.getD j 0) := by
  rw [← Complex128.sum_neg]
  apply Finset.sum_congr rfl
  intro j hj
  rw [h j (Finset.mem_range.mp hj), Complex128.mul_neg', Complex128.mul_comm']

theorem applyGate_rowProduct (gate : String) (qubit1 qubit2 : Int) (qr : QuantumRegister)
    (d : Nat) (F : Nat → Nat → Complex128) (hv : qr.value = "")
    (hM : GenerateGate gate qr.numQubits qubit1 qubit2 = .ok (toMat d F))
    (hlen : d ≤ qr.amplitudes.length) :
    applyGate gate qubit1 qubit2 qr =
      (.ok (), { qr with amplitudes := rowProduct qr.amplitudes (toMat d F) d }) := by
  rw [applyGate_toMat gate qubit1 qubit2 qr d F hv hM hlen]
  congr 2
  apply List.map_congr_left
  intro i hi
  apply Finset.sum_congr rfl
  intro j hj
  rw [ent_toMat _ _ _ _ (Finset.mem_range.mp hj) (List.mem_range.mp hi)]

theorem rowProduct_symmetric (a : List Complex128) (M : Matrix) (d : Nat)
    (h : SymmetricOn M d) : rowProduct a M d = columnProduct M a d := by
  apply List.map_congr_left
  intro i hi
  exact sum_row_eq_sum_col M a d i (fun j hj => h j i hj (List.mem_range.mp hi))

theorem rowProduct_antisymmetric (a : List Complex128) (M : Matrix) (d : Nat)
    (h : AntisymmetricOn M d) :
    rowProduct a M d = (columnProduct M a d).map fun z => -z := by
  unfold rowProduct columnProduct
  rw [List.map_map]
  apply List.map_congr_left
  intro i hi
  exact sum_row_eq_neg_sum_col M a d i (fun j hj => h i j (List.mem_range.mp hi) hj)

theorem symmetricOn_single (gate : String) (n k : Nat) (hg : gate ∈ singleQubitNames)
    (hY : gate ≠ "Y") : SymmetricOn (singleQubitOperator (NewGates.get gate) n k) (2 ^ n) := by
  intro i j hi hj
  unfold singleQubitOperator
  rw [ent_toMat _ _ _ _ hi hj, ent_toMat _ _ _ _ hj hi]
  exact singleQubitOperator_symm _ n _ i j (symmetric_of_mem gate hg hY)

theorem antisymmetricOn_Y (n k : Nat) :
    AntisymmetricOn (singleQubitOperator (NewGates.get "Y") n k) (2 ^ n) := by
  intro i j hi hj
  unfold singleQubitOperator
  rw [ent_toMat _ _ _ _ hi hj, ent_toMat _ _ _ _ hj hi]
  exact singleQubitOperator_antisymm _ n _ i j antisymmetric_Y

theorem symmetricOn_cnot (n c t : Nat) (hc : c < n) (ht : t < n) (hct : c ≠ t) :
    SymmetricOn (cnotTruthTable n c t) (2 ^ n) := by
  intro i j hi hj
  unfold cnotTruthTable
  rw [ent_toMat _ _ _ _ hi hj, ent_toMat _ _ _ _ hj hi]
  exact cnotTruthTable_symm n c t i j (by omega)

/-! ## Lemmas on unitarity and the norm of the amplitudes -/

theorem Cx.conj_add (x y : Cx) : (x + y).conj = x.conj + y.conj := by
  refine Cx.ext ?_ ?_ <;> simp only [Cx.conj, Cx.add_re, Cx.add_im]
  ring

theorem Cx.conj_mul (x y : Cx) : (x * y).conj = x.conj * y.conj := by
  refine Cx.ext ?_ ?_ <;> simp only [Cx.conj, Cx.mul_re, Cx.mul_im] <;> ring

theorem Cx.conj_zero : (0 : Cx).conj = 0 := by
  refine Cx.ext ?_ ?_ <;> simp only [Cx.conj, Cx.zero_re, Cx.zero_im, neg_zero]

theorem Cx.conj_one : (1 : Cx).conj = 1 := by
  refine Cx.ext ?_ ?_ <;> simp only [Cx.conj, Cx.one_re, Cx.one_im, neg_zero]

theorem Cx.conj_sum (d : Nat) (f : Nat → Cx) :
    (∑ j in Finset.range d, f j).conj = ∑ j in Finset.range d, (f j).conj := by
  induction d with
  | zero => simp [Cx.conj_zero]
  | succ d ih => rw [Finset.sum_range_succ, Finset.sum_range_succ, Cx.conj_add, ih]

theorem Cx.mul_conj_re (x : Cx) : (x * x.conj).re = x.normSq := by
  simp only [Cx.conj, Cx.normSq, Cx.mul_re]; ring

theorem Cx.re_sum (d : Nat) (f : Nat → Cx) :
    (∑ j in Finset.range d, f j).re = ∑ j in Finset.range d, (f j).re := by
  induction d with
  | zero => simp
  | succ d ih => rw [Finset.sum_range_succ, Finset.sum_range_succ, Cx.add_re, ih]

theorem Cx.toC_mul (x y : Cx) : (x * y).toC = x.toC * y.toC := rfl

theorem Cx.toC_add (x y : Cx) : (x + y).toC = x.toC + y.toC := rfl

theorem Cx.toC_zero : (0 : Cx).toC = 0 := rfl

theorem Cx.toC_one : (1 : Cx).toC = 1 := rfl

theorem Cx.toC_conj (x : Cx) : x.conj.toC = x.toC.conj := rfl

theorem Cx.toC_sum (d : Nat) (f : Nat → Cx) :
    (∑ j in Finset.range d, f j).toC = ∑ j in Finset.range d, (f j).toC := by
  induction d with
  | zero => rfl
  | succ d ih => rw [Finset.sum_range_succ, Finset.sum_range_succ, Cx.toC_add, ih]

theorem Cx.toC_notNaN (x : Cx) : x.toC.notNaN = true := rfl

theorem Cx.absSq_toC (x : Cx) : x.toC.absSq = F64.fin x.normSq := rfl

theorem Complex128.toC_toCx (z : Complex128) (h : z.notNaN = true) : z.toCx.toC = z := by
  obtain ⟨a, b, rfl⟩ := (Complex128.notNaN_iff z).mp h
  rfl

theorem norm_preserved (F : Nat → Nat → Cx) (d : Nat) (hF : UnitaryOn F d) (v : Nat → Cx) :
    (∑ i in Finset.range d, (∑ j in Finset.range d, v j * F j i) *
        (∑ l in Finset.range d, v l * F l i).conj) =
      ∑ j in Finset.range d, v j * (v j).conj := by
  have h1 : ∀ i ∈ Finset.range d, (∑ j in Finset.range d, v j * F j i) *
        (∑ l in Finset.range d, v l * F l i).conj =
      ∑ j in Finset.range d, ∑ l in Finset.range d,
        (v j * (v l).conj) * (F j i * (F l i).conj) := by
    intro i _
    rw [Cx.conj_sum, Finset.sum_mul_sum]
    apply Finset.sum_congr rfl
    intro j _
    apply Finset.sum_congr rfl
    intro l _
    rw [Cx.conj_mul]; ring
  rw [Finset.sum_congr rfl h1, Finset.sum_comm]
  apply Finset.sum_congr rfl
  intro j hj
  rw [Finset.sum_comm]
  have h2 : ∀ l ∈ Finset.range d, (∑ i in Finset.range d,
        (v j * (v l).conj) * (F j i * (F l i).conj)) =
      if j = l then v j * (v l).conj else 0 := by
    intro l hl
    rw [← Finset.mul_sum, hF j l (Finset.mem_range.mp hj) (Finset.mem_range.mp hl)]
    split <;> simp
  rw [Finset.sum_congr rfl h2, Finset.sum_ite_eq (Finset.range d) j]
  simp [hj]

theorem sum_range_double (N : Nat) (f : Nat → Cx) :
    (∑ l in Finset.range (2 * N), f l) = ∑ l in Finset.range N, (f (2 * l) + f (2 * l + 1)) := by
  induction N with
  | zero => simp
  | succ N ih =>
    rw [show 2 * (N + 1) = 2 * N + 1 + 1 from by ring, Finset.sum_range_succ,
      Finset.sum_range_succ, ih, Finset.sum_range_succ]
    ring

theorem unitaryOn_two_expand (G : Nat → Nat → Cx) (h : UnitaryOn G 2) (a b : Nat)
    (ha : a < 2) (hb : b < 2) :
    G a 0 * (G b 0).conj + G a 1 * (G b 1).conj = if a = b then 1 else 0 := by
  have := h a b ha hb
  rw [Finset.sum_range_succ, Finset.sum_range_succ, Finset.sum_range_zero, zero_add] at this
  exact this

theorem unitaryOn_fold (g : Nat → Nat → Nat → Cx) (m : Nat)
    (hg : ∀ k, k ≤ m → UnitaryOn (g k) 2) : UnitaryOn (foldEntriesCx g m) (2 ^ (m + 1)) := by
  induction m with
  | zero => exact hg 0 (Nat.le_refl _)
  | succ m ih =>
    intro i j hi hj
    have hi2 : i / 2 < 2 ^ (m + 1) := by
      apply Nat.div_lt_of_lt_mul; rw [← Nat.pow_succ']; exact hi
    have hj2 : j / 2 < 2 ^ (m + 1) := by
      apply Nat.div_lt_of_lt_mul; rw [← Nat.pow_succ']; exact hj
    have hF := ih (fun k hk => hg k (Nat.le_succ_of_le hk)) (i / 2) (j / 2) hi2 hj2
    have hG := unitaryOn_two_expand _ (hg (m + 1) (Nat.le_refl _)) (i % 2) (j % 2)
      (Nat.mod_lt _ (by decide)) (Nat.mod_lt _ (by decide))
    rw [show 2 ^ (m + 1 + 1) = 2 * 2 ^ (m + 1) from Nat.pow_succ', sum_range_double]
    have hterm : ∀ l ∈ Finset.range (2 ^ (m + 1)),
        (foldEntriesCx g (m + 1) i (2 * l) * (foldEntriesCx g (m + 1) j (2 * l)).conj +
          foldEntriesCx g (m + 1) i (2 * l + 1) *
            (foldEntriesCx g (m + 1) j (2 * l + 1)).conj) =
        (foldEntriesCx g m (i / 2) l * (foldEntriesCx g m (j / 2) l).conj) *
          (g (m + 1) (i % 2) 0 * (g (m + 1) (j % 2) 0).conj +
            g (m + 1) (i % 2) 1 * (g (m + 1) (j % 2) 1).conj) := by
      intro l _
      have e1 : 2 * l / 2 = l := by omega
      have e2 : 2 * l % 2 = 0 := by omega
      have e3 : (2 * l + 1) / 2 = l := by omega
      have e4 : (2 * l + 1) % 2 = 1 := by omega
      simp only [foldEntriesCx, e1, e2, e3, e4, Cx.conj_mul]
      ring
    rw [Finset.sum_congr rfl hterm, ← Finset.sum_mul, hF, hG]
    have hiff : i = j ↔ (i / 2 = j / 2 ∧ i % 2 = j % 2) := by omega
    by_cases h1 : i / 2 = j / 2
    · by_cases h2 : i % 2 = j % 2
      · rw [if_pos h1, if_pos h2, if_pos (hiff.mpr ⟨h1, h2⟩), mul_one]
      · rw [if_pos h1, if_neg h2, if_neg (fun h => h2 (hiff.mp h).2), mul_zero]
    · rw [if_neg h1, if_neg (fun h => h1 (hiff.mp h).1), zero_mul]

theorem foldEntries_toC (g : Nat → Nat → Nat → Complex128) (g' : Nat → Nat → Nat → Cx) (m : Nat)
    (h : ∀ k, k ≤ m → ∀ a b, a < 2 → b < 2 → g k a b = (g' k a b).toC) :
    ∀ i j, i < 2 ^ (m + 1) → j < 2 ^ (m + 1) →
      foldEntries g m i j = (foldEntriesCx g' m i j).toC := by
  induction m with
  | zero =>
    intro i j hi hj
    exact h 0 (Nat.le_refl _) i j (by simpa using hi) (by simpa using hj)
  | succ m ih =>
    intro i j hi hj
    have hi2 : i / 2 < 2 ^ (m + 1) := by
      apply Nat.div_lt_of_lt_mul; rw [← Nat.pow_succ']; exact hi
    have hj2 : j / 2 < 2 ^ (m + 1) := by
      apply Nat.div_lt_of_lt_mul; rw [← Nat.pow_succ']; exact hj
    simp only [foldEntries, foldEntriesCx]
    rw [ih (fun k hk => h k (Nat.le_succ_of_le hk)) _ _ hi2 hj2,
      h (m + 1) (Nat.le_refl _) _ _ (Nat.mod_lt _ (by decide)) (Nat.mod_lt _ (by decide)),
      Cx.toC_mul]

theorem isUnitary2_unitaryOn (G : Matrix) (h : IsUnitary2 G) :
    UnitaryOn (fun a b => (ent G a b).toCx) 2 := by
  intro a b ha hb
  rw [Finset.sum_range_succ, Finset.sum_range_succ, Finset.sum_range_zero, zero_add]
  have ha' : a = 0 ∨ a = 1 := by omega
  have hb' : b = 0 ∨ b = 1 := by omega
  rcases ha' with rfl | rfl <;> rcases hb' with rfl | rfl
  · exact h false false
  · exact h false true
  · exact h true false
  · exact h true true

theorem isUnitary2_of_mem (gate : String) (hg : gate ∈ singleQubitNames) :
    IsUnitary2 (NewGates.get gate) := by
  simp only [singleQubitNames, List.mem_cons, List.mem_singleton, List.not_mem_nil, or_false] at hg
  rcases hg with rfl | rfl | rfl | rfl | rfl | rfl | rfl | rfl | rfl <;> decide!

theorem isUnitary2_idGate : IsUnitary2 idGate := by decide!

theorem isGate2_ent (G : Matrix) (h : IsGate2 G) (a b : Nat) (ha : a < 2) (hb : b < 2) :
    ent G a b = (ent G a b).toCx.toC := by
  have ha' : a = 0 ∨ a = 1 := by omega
  have hb' : b = 0 ∨ b = 1 := by omega
  symm
  apply Complex128.toC_toCx
  rcases ha' with rfl | rfl <;> rcases hb' with rfl | rfl
  · exact h.2 false false
  · exact h.2 false true
  · exact h.2 true false
  · exact h.2 true true
theorem Cx.toC_ite (p : Prop) [Decidable p] :
    (if p then (1 : Cx) else 0).toC = if p then 1 else 0 := by
  split <;> rfl

theorem perm_unitaryOn (d : Nat) (f : Nat → Nat) (hf : ∀ i, i < d → f i < d)
    (hinv : ∀ i, f (f i) = i) :
    UnitaryOn (fun i j => if j = f i then (1 : Cx) else 0) d := by
  intro i j hi _
  have hterm : ∀ l ∈ Finset.range d,
      (if l = f i then (1 : Cx) else 0) * (if l = f j then (1 : Cx) else 0).conj =
        if l = f i then (if i = j then 1 else 0) else 0 := by
    intro l _
    by_cases h1 : l = f i
    · rw [if_pos h1, if_pos h1, one_mul]
      by_cases h2 : i = j
      · rw [if_pos h2, if_pos (by rw [h1, h2]), Cx.conj_one]
      · have h3 : ¬ l = f j := by
          intro h3
          apply h2
          have h4 := congrArg f (h1.symm.trans h3)
          rwa [hinv, hinv] at h4
        rw [if_neg h2, if_neg h3, Cx.conj_zero]
    · rw [if_neg h1, if_neg h1, zero_mul]
  show (∑ l in Finset.range d,
    (if l = f i then (1 : Cx) else 0) * (if l = f j then (1 : Cx) else 0).conj) = _
  rw [Finset.sum_congr rfl hterm, Finset.sum_ite_eq' (Finset.range d) (f i),
    if_pos (Finset.mem_range.mpr (hf i hi))]

theorem generateGate_valid (m : Nat) (c : String × Int × Int) (h : ValidCall (m + 1) c) :
    ∃ F : Nat → Nat → Cx, UnitaryOn F (2 ^ (m + 1)) ∧
      GenerateGate c.1 ((m + 1 : Nat) : Int) c.2.1 c.2.2 =
        .ok (toMat (2 ^ (m + 1)) fun i j => (F i j).toC) := by
  obtain ⟨gate, q1, q2⟩ := c
  rcases h with ⟨hg, _, _⟩ | ⟨hg, h1, h2, h3, h4, hne⟩
  · obtain ⟨hname, hG⟩ := isGate2_of_mem gate hg
    refine ⟨foldEntriesCx (fun k a b =>
      (ent (if (k : Int) = q1 then NewGates.get gate else idGate) a b).toCx) m, ?_, ?_⟩
    · apply unitaryOn_fold
      intro k _
      apply isUnitary2_unitaryOn
      split
      · exact isUnitary2_of_mem gate hg
      · exact isUnitary2_idGate
    · show GenerateGate gate ((m + 1 : Nat) : Int) q1 q2 = _
      rw [generateGate_single_fold gate m q1 q2 hname hG.1]
      congr 1
      apply toMat_congr
      intro i j hi hj
      apply foldEntries_toC _ _ _ _ i j hi hj
      intro k _ a b ha hb
      apply isGate2_ent _ _ a b ha hb
      split
      · exact hG
      · exact isGate2_idGate
  · simp only at hg h1 h2 h3 h4 hne
    subst hg
    obtain ⟨c, rfl⟩ := Int.eq_ofNat_of_zero_le h1
    obtain ⟨t, rfl⟩ := Int.eq_ofNat_of_zero_le h3
    have hc : c ≤ m := by omega
    have ht : t ≤ m := by omega
    have hct : c ≠ t := fun e => hne (by rw [e])
    refine ⟨fun i j => if j = (if i.testBit (m + 1 - 1 - c) = true
      then i ^^^ 2 ^ (m + 1 - 1 - t) else i) then (1 : Cx) else 0, ?_, ?_⟩
    · apply perm_unitaryOn
      · intro i hi
        split
        · exact xor_two_pow_lt hi (by omega)
        · exact hi
      · intro i
        exact cnotMap_involutive _ _ i (by omega)
    · show GenerateGate "CNOT" ((m + 1 : Nat) : Int) (c : Int) (t : Int) = _
      rw [generateGate_cnot m c t hc ht hct]
      congr 1
      apply toMat_congr
      intro i j _ _
      exact (Cx.toC_ite _).symm

theorem list_sum_map_range (d : Nat) (f : Nat → F64) :
    ((List.range d).map f).sum = ∑ i in Finset.range d, f i := by
  induction d with
  | zero => rfl
  | succ d ih =>
    rw [List.range_succ, List.map_append, List.sum_append, ih, Finset.sum_range_succ]
    simp

theorem fin_sum (d : Nat) (f : Nat → QSqrt2) :
    (∑ i in Finset.range d, F64.fin (f i)) = F64.fin (∑ i in Finset.range d, f i) := by
  induction d with
  | zero => rfl
  | succ d ih => rw [Finset.sum_range_succ, Finset.sum_range_succ, ih, F64.fin_add_fin]

theorem absSq_sum_of_norm (d : Nat) (v : Nat → Cx)
    (hnorm : (∑ i in Finset.range d, v i * (v i).conj) = 1) :
    (((List.range d).map fun i => (v i).toC).map Complex128.absSq).sum = 1 := by
  rw [List.map_map, list_sum_map_range]
  simp only [Function.comp, Cx.absSq_toC]
  rw [fin_sum]
  have h := congrArg Cx.re hnorm
  rw [Cx.re_sum] at h
  simp only [Cx.mul_conj_re, Cx.one_re] at h
  rw [h]
  rfl

theorem applyGate_valid_step (m : Nat) (c : String × Int × Int) (h : ValidCall (m + 1) c)
    (qr : QuantumRegister) (hq : qr.numQubits = ((m + 1 : Nat) : Int)) (hv : qr.value = "")
    (v : Nat → Cx)
    (ha : qr.amplitudes = (List.range (2 ^ (m + 1))).map fun i => (v i).toC)
    (hnorm : (∑ i in Finset.range (2 ^ (m + 1)), v i * (v i).conj) = 1) :
    ∃ v' : Nat → Cx,
      applyGate c.1 c.2.1 c.2.2 qr =
        (.ok (), { qr with
          amplitudes := (List.range (2 ^ (m + 1))).map (fun i => (v' i).toC) }) ∧
      (∑ i in Finset.range (2 ^ (m + 1)), v' i * (v' i).conj) = 1 := by
  obtain ⟨F, hF, hM⟩ := generateGate_valid m c h
  refine ⟨fun i => ∑ j in Finset.range (2 ^ (m + 1)), v j * F j i, ?_, ?_⟩
  · rw [applyGate_toMat c.1 c.2.1 c.2.2 qr (2 ^ (m + 1)) _ hv (by rw [hq]; exact hM)
      (by rw [ha]; simp)]
    congr 2
    apply List.map_congr_left
    intro i _
    rw [Cx.toC_sum]
    apply Finset.sum_congr rfl
    intro j hj
    rw [ha, getD_map_range _ _ j (Finset.mem_range.mp hj), Cx.toC_mul]
  · rw [norm_preserved F _ hF v]
    exact hnorm

theorem applyGates_valid (m : Nat) (calls : List (String × Int × Int))
    (hcalls : ∀ c ∈ calls, ValidCall (m + 1) c) :
    ∀ (qr : QuantumRegister) (v : Nat → Cx), qr.numQubits = ((m + 1 : Nat) : Int) →
      qr.value = "" →
      qr.amplitudes = (List.range (2 ^ (m + 1))).map (fun i => (v i).toC) →
      (∑ i in Finset.range (2 ^ (m + 1)), v i * (v i).conj) = 1 →
      ∃ v' : Nat → Cx,
        applyGates calls qr =
          (.ok (), { qr with
            amplitudes := (List.range (2 ^ (m + 1))).map (fun i => (v' i).toC) }) ∧
        (∑ i in Finset.range (2 ^ (m + 1)), v' i * (v' i).conj) = 1 := by
  induction calls with
  | nil =>
    intro qr v _ _ ha hnorm
    refine ⟨v, ?_, hnorm⟩
    rw [← ha]
    rfl
  | cons c rest ih =>
    intro qr v hq hv ha hnorm
    obtain ⟨v1, h1, hn1⟩ := applyGate_valid_step m c (hcalls c (List.mem_cons_self _ _))
      qr hq hv v ha hnorm
    obtain ⟨v2, h2, hn2⟩ := ih (fun c' hc' => hcalls c' (List.mem_cons_of_mem _ hc'))
      { qr with amplitudes := (List.range (2 ^ (m + 1))).map fun i => (v1 i).toC } v1 hq hv rfl hn1
    refine ⟨v2, ?_, hn2⟩
    obtain ⟨gate, q1, q2⟩ := c
    simp only [applyGates]
    simp only at h1
    rw [h1]
    exact h2

theorem fresh_amplitudes (n : Nat) :
    ((1 : Complex128) :: List.replicate (2 ^ n - 1) 0) =
      (List.range (2 ^ n)).map fun i => (if i = 0 then (1 : Cx) else 0).toC := by
  have hp : 0 < 2 ^ n := Nat.two_pow_pos _
  rw [← map_getD_range ((1 : Complex128) :: List.replicate (2 ^ n - 1) 0) (2 ^ n)
    (by simp; omega)]
  apply List.map_congr_left
  intro i _
  rw [getD_basis, Cx.toC_ite]

theorem fresh_norm (n : Nat) :
    (∑ i in Finset.range (2 ^ n),
      (if i = 0 then (1 : Cx) else 0) * (if i = 0 then (1 : Cx) else 0).conj) = 1 := by
  have hterm : ∀ i ∈ Finset.range (2 ^ n),
      (if i = 0 then (1 : Cx) else 0) * (if i = 0 then (1 : Cx) else 0).conj =
        if i = 0 then 1 else 0 := by
    intro i _
    split
    · rw [Cx.conj_one, one_mul]
    · rw [zero_mul]
  rw [Finset.sum_congr rfl hterm, Finset.sum_ite_eq' (Finset.range (2 ^ n)) 0,
    if_pos (Finset.mem_range.mpr (Nat.two_pow_pos _))]

theorem foldl_range_sum (d : Nat) (f : Nat → Complex128) :
    (List.range d).foldl (fun acc k => acc + f k) 0 = ∑ k in Finset.range d, f k := by
  induction d with
  | zero => rfl
  | succ d ih =>
    rw [List.range_succ, List.foldl_append, ih, Finset.sum_range_succ]
    rfl

theorem matMul_conjTranspose_unitary (d : Nat) (F : Nat → Nat → Cx) (hF : UnitaryOn F d) :
    matMul (toMat d fun i j => (F i j).toC)
        (conjTranspose (toMat d fun i j => (F i j).toC)) = identityMatrix d := by
  unfold matMul conjTranspose identityMatrix
  simp only [toMat_length]
  apply toMat_congr
  intro i j hi hj
  rw [foldl_range_sum]
  have hterm : ∀ k ∈ Finset.range d,
      ent (toMat d fun i j => (F i j).toC) i k *
        ent (toMat d fun i j => (ent (toMat d fun i j => (F i j).toC) j i).conj) k j =
      (F i k * (F j k).conj).toC := by
    intro k hk
    have hk' := Finset.mem_range.mp hk
    rw [ent_toMat _ _ _ _ hi hk', ent_toMat _ _ _ _ hk' hj, ent_toMat _ _ _ _ hj hk']
    rfl
  rw [Finset.sum_congr rfl hterm, ← Cx.toC_sum, hF i j hi hj, Cx.toC_ite]

/-- The modelled constants are the exact ones: `√2 · √2 = 2`, `(1/√2) · √2 = 1`,
`(e^{iπ/4})² = i` with positive real part `√2/2`, and `e^{-iπ/4}` is the conjugate and
the inverse of `e^{iπ/4}` -/
theorem model_constants :
    F64.fin QSqrt2.sqrtTwo * F64.fin QSqrt2.sqrtTwo = F64.fin ⟨2, 0⟩ ∧
    invSqrtTwo * F64.fin QSqrt2.sqrtTwo = 1 ∧
    expIPiOver4 * expIPiOver4 = ⟨0, 1⟩ ∧
    expIPiOver4.re = invSqrtTwo ∧
    expNegIPiOver4 = expIPiOver4.conj ∧
    expIPiOver4 * expNegIPiOver4 = 1 := by
  decide!

/-! ## The claims -/

/-- C1: for `n ≥ 2` qubits and distinct control `c` and target `t` below `n`,
`GenerateGate("CNOT", n, c, t)` returns the `2^n × 2^n` matrix of the CNOT truth table:
entry `[i][j]` is 1 when `j` is `i` with bit `n-1-t` flipped if bit `n-1-c` of `i` is set
(and `j = i` otherwise), every other entry is 0, and no entry is NaN; for
`("CNOT", 2, 0, 1)` the rows are `e0, e1, e3, e2`. -/
theorem C1_cnot_truth_table (n c t : Nat) (hn : 2 ≤ n) (hc : c < n) (ht : t < n)
    (hct : c ≠ t) :
    GenerateGate "CNOT" (n : Int) (c : Int) (t : Int) = .ok (cnotTruthTable n c t) ∧
    (∀ row ∈ cnotTruthTable n c t, ∀ z ∈ row,
      (z = 1 ∨ z = 0) ∧ F64.IsNaN z.re = false ∧ F64.IsNaN z.im = false) ∧
    GenerateGate "CNOT" 2 0 1 =
      .ok [[1, 0, 0, 0], [0, 1, 0, 0], [0, 0, 0, 1], [0, 0, 1, 0]] := by
  obtain ⟨m, rfl⟩ : ∃ m, n = m + 1 := ⟨n - 1, by omega⟩
  exact ⟨generateGate_cnot m c t (by omega) (by omega) hct, cnotTruthTable_entries _ c t,
    by decide!⟩

/-- Witness of C1 on three qubits, control 1 and target 2 -/
theorem C1_cnot_truth_table_witness :
    (2 ≤ 3 ∧ 1 < 3 ∧ 2 < 3 ∧ 1 ≠ 2) ∧
    GenerateGate "CNOT" 3 1 2 =
      .ok [[1, 0, 0, 0, 0, 0, 0, 0], [0, 1, 0, 0, 0, 0, 0, 0], [0, 0, 0, 1, 0, 0, 0, 0],
        [0, 0, 1, 0, 0, 0, 0, 0], [0, 0, 0, 0, 1, 0, 0, 0], [0, 0, 0, 0, 0, 1, 0, 0],
        [0, 0, 0, 0, 0, 0, 0, 1], [0, 0, 0, 0, 0, 0, 1, 0]] :=
  ⟨by decide,
    (C1_cnot_truth_table 3 1 2 (by decide) (by decide) (by decide) (by decide)).1.trans
      (by decide!)⟩

/-- C2: for a single-qubit gate name `G` of the catalogue, `n ≥ 1` qubits, `k < n` and any
`qubit2`, `GenerateGate(G, n, k, qubit2)` returns the `2^n × 2^n` matrix
`Id^{⊗k} ⊗ G ⊗ Id^{⊗(n-1-k)}`, qubit 0 the most significant factor: entry `[i][j]` is
`G[b_i][b_j]` (`b` being bit `n-1-k`) when `i` and `j` agree on every other bit and 0
otherwise; the result does not depend on `qubit2`. -/
theorem C2_single_qubit_operator (gate : String) (n k : Nat) (qubit2 : Int)
    (hg : gate ∈ singleQubitNames) (hn : 1 ≤ n) (hk : k < n) :
    GenerateGate gate (n : Int) (k : Int) qubit2 =
      .ok (singleQubitOperator (NewGates.get gate) n k) ∧
    ∀ q : Int, GenerateGate gate (n : Int) (k : Int) q =
      GenerateGate gate (n : Int) (k : Int) qubit2 := by
  obtain ⟨m, rfl⟩ : ∃ m, n = m + 1 := ⟨n - 1, by omega⟩
  have h := isGate2_of_mem gate hg
  have key : ∀ q : Int, GenerateGate gate ((m + 1 : Nat) : Int) (k : Int) q =
      .ok (singleQubitOperator (NewGates.get gate) (m + 1) k) :=
    fun q => generateGate_single gate m k q (by omega) h.1 h.2
  exact ⟨key qubit2, fun q => (key q).trans (key qubit2).symm⟩

/-- Witness of C2: the Hadamard gate on qubit 0 of two qubits, with the sentinel −1 -/
theorem C2_single_qubit_operator_witness :
    ("H" ∈ singleQubitNames ∧ 1 ≤ 2 ∧ 0 < 2) ∧
    GenerateGate "H" 2 0 (-1) =
      .ok [[⟨invSqrtTwo, 0⟩, 0, ⟨invSqrtTwo, 0⟩, 0], [0, ⟨invSqrtTwo, 0⟩, 0, ⟨invSqrtTwo, 0⟩],
        [⟨invSqrtTwo, 0⟩, 0, ⟨-invSqrtTwo, 0⟩, 0], [0, ⟨invSqrtTwo, 0⟩, 0, ⟨-invSqrtTwo, 0⟩]] :=
  ⟨by decide,
    (C2_single_qubit_operator "H" 2 0 (-1) (by decide) (by decide) (by decide)).1.trans
      (by decide!)⟩

/-- C3: on an unmeasured register with `n ≥ 1` qubits and `2^n` amplitudes `a`, `applyGate`
with a catalogued gate name and any qubit arguments obtains `M` from `GenerateGate` and
replaces the amplitudes by the row-vector product `a'[i] = Σ_j a[j] · M[j][i]` of length
`2^n`; `numQubits` and the unmeasured status (`value = ""`) stay as they were. -/
theorem C3_applyGate_row_vector (qr : QuantumRegister) (n : Nat) (gate : String)
    (qubit1 qubit2 : Int) (hn : 1 ≤ n) (hq : qr.numQubits = (n : Int)) (hv : qr.value = "")
    (hlen : qr.amplitudes.length = 2 ^ n) (hg : gate ∈ singleQubitNames ∨ gate = "CNOT") :
    ∃ M : Matrix, GenerateGate gate (n : Int) qubit1 qubit2 = .ok M ∧
      applyGate gate qubit1 qubit2 qr =
        (.ok (), { qr with amplitudes := (List.range (2 ^ n)).map fun i =>
          ∑ j in Finset.range (2 ^ n), qr.amplitudes.getD j 0 * ent M j i }) ∧
      (applyGate gate qubit1 qubit2 qr).2.amplitudes.length = 2 ^ n ∧
      (applyGate gate qubit1 qubit2 qr).2.numQubits = (n : Int) ∧
      (applyGate gate qubit1 qubit2 qr).2.value = "" := by
  obtain ⟨m, rfl⟩ : ∃ m, n = m + 1 := ⟨n - 1, by omega⟩
  obtain ⟨F, hF⟩ := generateGate_catalogued gate m qubit1 qubit2 hg
  have happ : applyGate gate qubit1 qubit2 qr =
      (.ok (), { qr with amplitudes := (List.range (2 ^ (m + 1))).map fun i =>
        ∑ j in Finset.range (2 ^ (m + 1)),
          qr.amplitudes.getD j 0 * ent (toMat (2 ^ (m + 1)) F) j i }) := by
    rw [applyGate_toMat gate qubit1 qubit2 qr (2 ^ (m + 1)) F hv (by rw [hq]; exact hF)
      (by omega)]
    congr 2
    apply List.map_congr_left
    intro i hi
    apply Finset.sum_congr rfl
    intro j hj
    rw [ent_toMat _ _ _ _ (Finset.mem_range.mp hj) (List.mem_range.mp hi)]
  refine ⟨toMat (2 ^ (m + 1)) F, hF, happ, ?_, ?_, ?_⟩
  · rw [happ]; simp
  · rw [happ]; exact hq
  · rw [happ]; exact hv

/-- Witness of C3: the gate X on qubit 0 of the two-qubit register in state |00⟩ -/
theorem C3_applyGate_row_vector_witness :
    ∃ M : Matrix, GenerateGate "X" 2 0 (-1) = .ok M ∧
      applyGate "X" 0 (-1) ⟨2, [1, 0, 0, 0], "", []⟩ =
        (.ok (), ⟨2, (List.range (2 ^ 2)).map fun i =>
          ∑ j in Finset.range (2 ^ 2), ([1, 0, 0, 0] : List Complex128).getD j 0 * ent M j i,
          "", []⟩) ∧
      (applyGate "X" 0 (-1) ⟨2, [1, 0, 0, 0], "", []⟩).2.amplitudes.length = 2 ^ 2 ∧
      (applyGate "X" 0 (-1) ⟨2, [1, 0, 0, 0], "", []⟩).2.numQubits = 2 ∧
      (applyGate "X" 0 (-1) ⟨2, [1, 0, 0, 0], "", []⟩).2.value = "" :=
  C3_applyGate_row_vector ⟨2, [1, 0, 0, 0], "", []⟩ 2 "X" 0 (-1) (by decide) rfl rfl rfl
    (by decide)

/-- C4: after `measure` has returned on a register with `numQubits ≥ 1` and
`2^numQubits` amplitudes, every `applyGate` call, whatever the gate name and qubit
arguments, panics with the invalid-state message and leaves the register (its
`numQubits`, amplitudes and recorded value) as it was; the recorded value is never the
empty string. -/
theorem C4_applyGate_after_measure (rng : RandSource) (qr : QuantumRegister) (n : Nat)
    (gate : String) (qubit1 qubit2 : Int) (hn : 1 ≤ n) (hq : qr.numQubits = (n : Int))
    (hlen : qr.amplitudes.length = 2 ^ n) :
    ∃ s, (measure rng qr).1 = .ok s ∧ (measure rng qr).2.value = s ∧ s ≠ "" ∧
      applyGate gate qubit1 qubit2 (measure rng qr).2 =
        (.error (.message "Cannot Apply Gate to Measured Register"), (measure rng qr).2) := by
  obtain ⟨s, h1, h2, h3⟩ := measure_returns rng qr n hn hq hlen
  exact ⟨s, h1, h2, h3, applyGate_measured gate qubit1 qubit2 _ (by rw [h2]; exact h3)⟩

/-- Witness of C4: a one-qubit register, measured, then asked to apply X -/
theorem C4_applyGate_after_measure_witness :
    ∃ s, (measure lastIndexSource ⟨1, [1, 0], "", []⟩).1 = .ok s ∧
      (measure lastIndexSource ⟨1, [1, 0], "", []⟩).2.value = s ∧ s ≠ "" ∧
      applyGate "X" 0 (-1) (measure lastIndexSource ⟨1, [1, 0], "", []⟩).2 =
        (.error (.message "Cannot Apply Gate to Measured Register"),
          (measure lastIndexSource ⟨1, [1, 0], "", []⟩).2) :=
  C4_applyGate_after_measure lastIndexSource ⟨1, [1, 0], "", []⟩ 1 "X" 0 (-1) (by decide) rfl rfl

/-- C5: `measure` is idempotent: on a register with `numQubits ≥ 1` and `2^numQubits`
amplitudes a second call returns the string of the first call, whatever the random
source of the second call would draw, and leaves every field of the register as the
first call left it. -/
theorem C5_measure_idempotent (rng1 rng2 : RandSource) (qr : QuantumRegister) (n : Nat)
    (hn : 1 ≤ n) (hq : qr.numQubits = (n : Int)) (hlen : qr.amplitudes.length = 2 ^ n) :
    ∃ s, (measure rng1 qr).1 = .ok s ∧
      measure rng2 (measure rng1 qr).2 = (.ok s, (measure rng1 qr).2) := by
  obtain ⟨s, h1, h2, h3⟩ := measure_returns rng1 qr n hn hq hlen
  refine ⟨s, h1, ?_⟩
  rw [measure_measured rng2 _ (by rw [h2]; exact h3), h2]

/-- Witness of C5: two calls with sources that would draw different indices -/
theorem C5_measure_idempotent_witness :
    ∃ s, (measure lastIndexSource ⟨1, [1, 0], "", []⟩).1 = .ok s ∧
      measure firstIndexSource (measure lastIndexSource ⟨1, [1, 0], "", []⟩).2 =
        (.ok s, (measure lastIndexSource ⟨1, [1, 0], "", []⟩).2) :=
  C5_measure_idempotent lastIndexSource firstIndexSource ⟨1, [1, 0], "", []⟩ 1 (by decide) rfl rfl

/-- C6: on an unmeasured register with `n ≥ 1` qubits and `2^n` amplitudes, when the draw
yields the index `d` (which lies in `[0, 2^n)`), `measure` returns, and records as the
value, the string of exactly `n` characters `'0'`/`'1'` that is `d` in binary with
leading zeros, most significant bit first. -/
theorem C6_measure_bit_string (rng : RandSource) (qr : QuantumRegister) (n d : Nat)
    (hn : 1 ≤ n) (hq : qr.numQubits = (n : Int)) (hv : qr.value = "")
    (hlen : qr.amplitudes.length = 2 ^ n) (hd : rng.next (2 ^ n) = d) :
    d < 2 ^ n ∧
    (measure rng qr).1 = .ok (bitString n d) ∧
    (measure rng qr).2.value = bitString n d ∧
    (bitString n d).length = n ∧
    (∀ p, p < n → (bitString n d).data.get? p =
      some (if d.testBit (n - 1 - p) then '1' else '0')) := by
  subst hd
  rw [measure_unmeasured rng qr n hn hq hv hlen]
  refine ⟨rng.next_lt _ (Nat.two_pow_pos _), rfl, rfl, ?_, ?_⟩
  · simp [bitString, String.length, bitChars_length]
  · intro p hp
    simp [bitString, bitChars, hp]

/-- Witness of C6: two qubits, the draw yields index 3, the value is "11" -/
theorem C6_measure_bit_string_witness :
    lastIndexSource.next (2 ^ 2) = 3 ∧
    (measure lastIndexSource ⟨2, [0, 1, 0, 0], "", []⟩).1 = .ok "11" :=
  ⟨rfl, (C6_measure_bit_string lastIndexSource ⟨2, [0, 1, 0, 0], "", []⟩ 2 3 (by decide) rfl rfl
    rfl rfl).2.1.trans (by decide)⟩

/-- C7, as stated, fails: for 45 qubits the `16 · 2^45` bytes of the amplitude slice
exceed the runtime's allocation limit and `make` panics; for 63 the length `1 << 63` is
negative and `make` panics; and `1 << 64` is 0 in a 64-bit `int`, so
`NewQuantumRegister(64)` makes an empty amplitude slice and panics on writing index 0. -/
theorem C7_counterexample :
    NewQuantumRegister 45 = .error .makeLenOutOfRange ∧
    NewQuantumRegister 63 = .error .makeLenOutOfRange ∧
    NewQuantumRegister 64 = .error .indexOutOfRange := by
  decide!

/-- C7, amended: for `0 ≤ n ≤ 44`, the range in which the length `1 << n` passes the
length check of `make`, `NewQuantumRegister(n)` returns an unmeasured register
(`value = ""`) with `numQubits = n` and an amplitude vector of length exactly `2^n` whose
entry at index 0 is 1 and whose every other entry is 0; for every `n ≥ 45` it panics and
returns no register. -/
theorem C7_new_register (n : Nat) :
    (n ≤ 44 →
      ∃ qr, NewQuantumRegister (n : Int) = .ok qr ∧ qr.value = "" ∧ qr.numQubits = (n : Int) ∧
        qr.probabilities = [] ∧ qr.amplitudes.length = 2 ^ n ∧
        ∀ i, i < 2 ^ n → qr.amplitudes.get? i = some (if i = 0 then 1 else 0)) ∧
    (45 ≤ n → ∃ e, NewQuantumRegister (n : Int) = .error e) := by
  refine ⟨fun hn => ?_, newQuantumRegister_large n⟩
  have hp : 0 < 2 ^ n := Nat.two_pow_pos n
  refine ⟨_, newQuantumRegister_small n hn, rfl, rfl, rfl, ?_, ?_⟩
  · simp only [List.length_cons, List.length_replicate]; omega
  · intro i hi
    cases i with
    | zero => rfl
    | succ i =>
      have : i < 2 ^ n - 1 := by omega
      simp [List.getElem?_replicate, this]

/-- Witness of C7 (amended): three qubits give a register, fifty qubits a panic -/
theorem C7_new_register_witness :
    (3 ≤ 44 ∧
      ∃ qr, NewQuantumRegister 3 = .ok qr ∧ qr.value = "" ∧ qr.numQubits = 3 ∧
        qr.probabilities = [] ∧ qr.amplitudes.length = 2 ^ 3 ∧
        ∀ i, i < 2 ^ 3 → qr.amplitudes.get? i = some (if i = 0 then 1 else 0)) ∧
    (45 ≤ 50 ∧ ∃ e, NewQuantumRegister 50 = .error e) :=
  ⟨⟨by decide, (C7_new_register 3).1 (by decide)⟩,
    ⟨by decide, (C7_new_register 50).2 (by decide)⟩⟩

/-- C8: the SWAP circuit.  `NewQuantumRegister(2)` followed by `applyGate("X", 0, -1)` is
the state |10⟩ (amplitude 1 at index 2); the calls CNOT(0,1), H(0), H(1), CNOT(0,1), H(0),
H(1), CNOT(0,1) then leave, in exact arithmetic, amplitude 1 at index 1 and 0 at indices
0, 2 and 3: the state |01⟩, whose squared magnitudes are 0, 1, 0, 0. -/
theorem C8_swap_circuit :
    NewQuantumRegister 2 = .ok ⟨2, [1, 0, 0, 0], "", []⟩ ∧
    applyGate "X" 0 (-1) ⟨2, [1, 0, 0, 0], "", []⟩ = (.ok (), ⟨2, [0, 0, 1, 0], "", []⟩) ∧
    applyGates [("CNOT", 0, 1), ("H", 0, -1), ("H", 1, -1), ("CNOT", 0, 1), ("H", 0, -1),
        ("H", 1, -1), ("CNOT", 0, 1)] ⟨2, [0, 0, 1, 0], "", []⟩ =
      (.ok (), ⟨2, [0, 1, 0, 0], "", []⟩) ∧
    ([0, 1, 0, 0] : List Complex128).map Complex128.absSq = [0, 1, 0, 0] := by
  decide!

/-- C9: every one of the nine single-qubit matrices that `NewGates` stores is unitary:
the product of the matrix with its conjugate transpose is the 2×2 identity, in exact
arithmetic. -/
theorem C9_catalogue_unitary :
    NewGates.singleQubitGates.map Prod.fst = singleQubitNames ∧
    ∀ gate ∈ singleQubitNames,
      (NewGates.get gate).length = 2 ∧
      matMul (NewGates.get gate) (conjTranspose (NewGates.get gate)) = identityMatrix 2 := by
  decide!

/-- Witness of C9: the Hadamard matrix -/
theorem C9_catalogue_unitary_witness :
    "H" ∈ singleQubitNames ∧
    matMul (NewGates.get "H") (conjTranspose (NewGates.get "H")) = identityMatrix 2 :=
  ⟨by decide, (C9_catalogue_unitary.2 "H" (by decide)).2⟩

/-- C10, as stated, fails: for a name outside the catalogue `GenerateGate` raises no
error; it returns the empty matrix when `qubit1` is a qubit of the register and the
identity matrix when it is not. -/
theorem C10_counterexample :
    "Foo" ∉ singleQubitNames ∧ "Foo" ≠ "CNOT" ∧
    GenerateGate "Foo" 2 0 (-1) = .ok [] ∧
    GenerateGate "Foo" 1 0 (-1) = .ok [] ∧
    GenerateGate "Foo" 2 (-1) (-1) =
      .ok [[1, 0, 0, 0], [0, 1, 0, 0], [0, 0, 1, 0], [0, 0, 0, 1]] := by
  decide!

/-- C10, amended: for a gate name outside the catalogue, `n ≥ 1` qubits and any qubit
arguments, `GenerateGate` returns without an error: the empty matrix when `qubit1` lies in
`[0, n)`, and the `2^n × 2^n` identity matrix otherwise. -/
theorem C10_unknown_gate (gate : String) (n : Nat) (qubit1 qubit2 : Int)
    (hg : gate ∉ singleQubitNames) (hc : gate ≠ "CNOT") (hn : 1 ≤ n) :
    GenerateGate gate (n : Int) qubit1 qubit2 =
      .ok (if 0 ≤ qubit1 ∧ qubit1 < (n : Int) then [] else identityMatrix (2 ^ n)) := by
  obtain ⟨m, rfl⟩ : ∃ m, n = m + 1 := ⟨n - 1, by omega⟩
  exact generateGate_unknown gate m qubit1 qubit2 hg hc

/-- Witness of C10 (amended): the name "Toffoli" on three qubits -/
theorem C10_unknown_gate_witness :
    ("Toffoli" ∉ singleQubitNames ∧ "Toffoli" ≠ "CNOT" ∧ 1 ≤ 3) ∧
    GenerateGate "Toffoli" 3 1 2 = .ok [] :=
  ⟨by decide, (C10_unknown_gate "Toffoli" 3 1 2 (by decide) (by decide) (by decide)).trans
    (by decide)⟩

/-- C11, as stated, fails: with a qubit index outside `[0, n)` `GenerateGate` raises no
error and returns a matrix. -/
theorem C11_counterexample :
    GenerateGate "X" 2 2 (-1) = .ok [[1, 0, 0, 0], [0, 1, 0, 0], [0, 0, 1, 0], [0, 0, 0, 1]] ∧
    GenerateGate "CNOT" 2 0 2 = .ok [[1, 0, 0, 0], [0, 1, 0, 0], [0, 0, 1, 0], [0, 0, 0, 1]] ∧
    GenerateGate "CNOT" 2 (-1) 1 =
      .ok [[0, 1, 0, 0], [1, 0, 0, 0], [0, 0, 0, 1], [0, 0, 1, 0]] := by
  decide!

/-- C11, amended: for `n ≥ 1` qubits, with a qubit index outside `[0, n)` `GenerateGate`
raises no error and returns a `2^n × 2^n` matrix: the identity for a single-qubit gate
whose `qubit1` is outside; the identity for CNOT whose target `qubit2` is outside; and,
for CNOT whose control `qubit1` is outside while the target `t` is inside, the operator
that applies X to qubit `t` unconditionally. -/
theorem C11_out_of_range (n : Nat) (qubit1 qubit2 : Int) (hn : 1 ≤ n) :
    (∀ gate ∈ singleQubitNames, ¬ (0 ≤ qubit1 ∧ qubit1 < (n : Int)) →
      GenerateGate gate (n : Int) qubit1 qubit2 = .ok (identityMatrix (2 ^ n))) ∧
    (¬ (0 ≤ qubit2 ∧ qubit2 < (n : Int)) →
      GenerateGate "CNOT" (n : Int) qubit1 qubit2 = .ok (identityMatrix (2 ^ n))) ∧
    (¬ (0 ≤ qubit1 ∧ qubit1 < (n : Int)) → ∀ t : Nat, t < n → qubit2 = (t : Int) →
      GenerateGate "CNOT" (n : Int) qubit1 qubit2 = .ok (singleQubitOperator xGate n t)) := by
  obtain ⟨m, rfl⟩ : ∃ m, n = m + 1 := ⟨n - 1, by omega⟩
  refine ⟨?_, ?_, ?_⟩
  · intro gate hg hout
    exact generateGate_single_out_of_range gate m qubit1 qubit2 (isGate2_of_mem gate hg).1 hout
  · intro hout
    by_cases hin : 0 ≤ qubit1 ∧ qubit1 < ((m + 1 : Nat) : Int)
    · obtain ⟨c, hc⟩ : ∃ c : Nat, (c : Int) = qubit1 := ⟨qubit1.toNat, Int.toNat_of_nonneg hin.1⟩
      subst hc
      exact generateGate_cnot_no_target m c qubit2 (by omega)
        (fun k hk h => absurd ⟨by omega, by omega⟩ hout)
    · rw [generateGate_cnot_control_out m qubit1 qubit2 hin]
      exact generateGate_single_out_of_range "X" m qubit2 qubit2 (by decide) hout
  · intro hout t ht hq
    subst hq
    rw [generateGate_cnot_control_out m qubit1 _ hout, ← get_X]
    exact generateGate_single "X" m t _ (by omega) (by decide) (by rw [get_X]; exact isGate2_xGate)

/-- Witness of C11 (amended): three qubits, each index outside the register in turn -/
theorem C11_out_of_range_witness :
    1 ≤ 3 ∧
    GenerateGate "H" 3 3 (-1) = .ok (identityMatrix (2 ^ 3)) ∧
    GenerateGate "CNOT" 3 0 (-1) = .ok (identityMatrix (2 ^ 3)) ∧
    GenerateGate "CNOT" 3 7 1 = .ok (singleQubitOperator xGate 3 1) :=
  ⟨by decide,
    (C11_out_of_range 3 3 (-1) (by decide)).1 "H" (by decide) (by decide),
    (C11_out_of_range 3 0 (-1) (by decide)).2.1 (by decide),
    (C11_out_of_range 3 7 1 (by decide)).2.2 (by decide) 1 (by decide) rfl⟩

/-- C12, as stated, fails: with control equal to target `GenerateGate` raises no error and
returns the identity matrix. -/
theorem C12_counterexample :
    GenerateGate "CNOT" 2 0 0 = .ok [[1, 0, 0, 0], [0, 1, 0, 0], [0, 0, 1, 0], [0, 0, 0, 1]] ∧
    GenerateGate "CNOT" 1 0 0 = .ok [[1, 0], [0, 1]] := by
  decide!

/-- C12, amended: for `n ≥ 1` qubits and `q` in `[0, n)`, `GenerateGate("CNOT", n, q, q)`
raises no error and returns the `2^n × 2^n` identity matrix. -/
theorem C12_control_equals_target (n q : Nat) (hn : 1 ≤ n) (hq : q < n) :
    GenerateGate "CNOT" (n : Int) (q : Int) (q : Int) = .ok (identityMatrix (2 ^ n)) := by
  obtain ⟨m, rfl⟩ : ∃ m, n = m + 1 := ⟨n - 1, by omega⟩
  exact generateGate_cnot_no_target m q (q : Int) (by omega) (fun k _ h => by omega)

/-- Witness of C12 (amended): three qubits, control and target both qubit 1 -/
theorem C12_control_equals_target_witness :
    (1 ≤ 3 ∧ 1 < 3) ∧ GenerateGate "CNOT" 3 1 1 = .ok (identityMatrix (2 ^ 3)) :=
  ⟨by decide, C12_control_equals_target 3 1 (by decide) (by decide)⟩

/-- C13: `kron` is associative.  For square matrices `A` (`p × p`), `B` (`q × q`) and `C`
(`r × r`), `kron(kron(A, B), C)` and `kron(A, kron(B, C))` both return the same
`pqr × pqr` matrix, where `kron(A, B)[i][j] = A[i div q][j div q] * B[i mod q][j mod q]`;
hence `reduce([A, B, C])` returns `kron(A, kron(B, C))`.  (It holds for every dimension,
0 included, and for entries that are NaN as well.) -/
theorem C13_kron_associative (A B C : Matrix) (p q r : Nat)
    (hA : IsSquare A p) (hB : IsSquare B q) (hC : IsSquare C r) :
    ∃ AB BC R : Matrix, kron A B = .ok AB ∧ kron B C = .ok BC ∧
      kron AB C = .ok R ∧ kron A BC = .ok R ∧ reduce [A, B, C] = .ok R ∧
      IsSquare R (p * q * r) ∧
      (∀ i j, i < p * q → j < p * q →
        ent AB i j = ent A (i / q) (j / q) * ent B (i % q) (j % q)) := by
  have hAB := kron_toMat p q (ent A) (ent B)
  have hBC := kron_toMat q r (ent B) (ent C)
  rw [← square_eq_toMat A p hA, ← square_eq_toMat B q hB] at hAB
  rw [← square_eq_toMat B q hB, ← square_eq_toMat C r hC] at hBC
  have hL := kron_toMat (p * q) r
    (fun i j => ent A (i / q) (j / q) * ent B (i % q) (j % q)) (ent C)
  have hR := kron_toMat p (q * r) (ent A)
    (fun i j => ent B (i / r) (j / r) * ent C (i % r) (j % r))
  rw [← square_eq_toMat C r hC] at hL
  rw [← square_eq_toMat A p hA] at hR
  rw [← kron_assoc_toMat] at hR
  refine ⟨_, _, _, hAB, hBC, hL, hR, ?_, isSquare_toMat _ _, ?_⟩
  · rw [reduce.eq_3, hAB]
    show reduce [_, C] = _
    rw [reduce.eq_3, hL]
    show reduce [_] = _
    rw [reduce.eq_2]
  · intro i j hi hj
    exact ent_toMat _ _ i j hi hj

/-- Witness of C13: the factors X, Id and H -/
theorem C13_kron_associative_witness :
    (IsSquare xGate 2 ∧ IsSquare idGate 2 ∧ IsSquare (NewGates.get "H") 2) ∧
    ∃ AB BC R : Matrix, kron xGate idGate = .ok AB ∧ kron idGate (NewGates.get "H") = .ok BC ∧
      kron AB (NewGates.get "H") = .ok R ∧ kron xGate BC = .ok R ∧
      reduce [xGate, idGate, NewGates.get "H"] = .ok R ∧ IsSquare R (2 * 2 * 2) ∧
      (∀ i j, i < 2 * 2 → j < 2 * 2 →
        ent AB i j = ent xGate (i / 2) (j / 2) * ent idGate (i % 2) (j % 2)) :=
  ⟨by decide, C13_kron_associative xGate idGate (NewGates.get "H") 2 2 2 (by decide) (by decide)
    (by decide)⟩

/-- C17: on a non-empty list `[G0, G1, …, Gm]` the recursive `reduce` is the iterative left
fold `kron(…kron(kron(G0, G1), G2)…, Gm)`; each recursive call is on a list one shorter,
so it terminates; on square factors it returns a (square) matrix; on a one-element list
it returns that element unchanged. -/
theorem C17_reduce_left_fold :
    (∀ (g : Matrix) (rest : List Matrix), reduce (g :: rest) = rest.foldlM kron g) ∧
    (∀ g : Matrix, reduce [g] = .ok g) ∧
    (∀ (gate1 gate2 : Matrix) (remaining : List Matrix),
      reduce (gate1 :: gate2 :: remaining) =
        (kron gate1 gate2).bind (fun result => reduce (result :: remaining)) ∧
      ∀ result : Matrix,
        (result :: remaining).length + 1 = (gate1 :: gate2 :: remaining).length) ∧
    (∀ (g : Matrix) (rest : List Matrix), (∀ M ∈ g :: rest, ∃ d, IsSquare M d) →
      ∃ R d, reduce (g :: rest) = .ok R ∧ rest.foldlM kron g = .ok R ∧ IsSquare R d) := by
  refine ⟨reduce_cons_eq_foldlM, fun g => by rw [reduce.eq_2], ?_, ?_⟩
  · intro gate1 gate2 remaining
    refine ⟨?_, fun _ => rfl⟩
    rw [reduce.eq_3]
    cases kron gate1 gate2 <;> rfl
  · intro g rest h
    obtain ⟨R, d, h1, h2⟩ := foldlM_kron_square rest g h
    exact ⟨R, d, (reduce_cons_eq_foldlM g rest).trans h1, h1, h2⟩

/-- C18: the outcome of `measure` does not depend on the state.  With the random source
the deterministic draw it is, two unmeasured registers with the same `n ≥ 1` qubits and
`2^n` amplitudes each, however different the amplitudes, get the same string: the draw
for the bound `2^n`; the probabilities computed do not enter the choice. -/
theorem C18_measure_ignores_state (rng : RandSource) (qr1 qr2 : QuantumRegister) (n : Nat)
    (hn : 1 ≤ n) (hq1 : qr1.numQubits = (n : Int)) (hq2 : qr2.numQubits = (n : Int))
    (hv1 : qr1.value = "") (hv2 : qr2.value = "")
    (hl1 : qr1.amplitudes.length = 2 ^ n) (hl2 : qr2.amplitudes.length = 2 ^ n) :
    (measure rng qr1).1 = (measure rng qr2).1 ∧
    (measure rng qr1).1 = .ok (bitString n (rng.next (2 ^ n))) ∧
    (measure rng qr1).2.probabilities = qr1.amplitudes.map Complex128.absSq ∧
    (measure rng qr2).2.probabilities = qr2.amplitudes.map Complex128.absSq := by
  rw [measure_unmeasured rng qr1 n hn hq1 hv1 hl1, measure_unmeasured rng qr2 n hn hq2 hv2 hl2]
  exact ⟨rfl, rfl, rfl, rfl⟩

/-- Witness of C18: the one-qubit states |0⟩ and |1⟩ are both measured as "1" when the
draw yields index 1, although |0⟩ has probability 0 there -/
theorem C18_measure_ignores_state_witness :
    (measure lastIndexSource ⟨1, [1, 0], "", []⟩).1 =
      (measure lastIndexSource ⟨1, [0, 1], "", []⟩).1 ∧
    (measure lastIndexSource ⟨1, [1, 0], "", []⟩).1 = .ok "1" ∧
    (measure lastIndexSource ⟨1, [1, 0], "", []⟩).2.probabilities = [1, 0] :=
  have h := C18_measure_ignores_state lastIndexSource ⟨1, [1, 0], "", []⟩ ⟨1, [0, 1], "", []⟩ 1
    (by decide) rfl rfl rfl rfl rfl rfl
  ⟨h.1, h.2.1.trans (by decide), h.2.2.1.trans (by decide!)⟩

/-- C14: X is self-inverse on the full register.  For `n ≥ 1` qubits, `k < n` and an
amplitude vector `a` of `2^n` complex numbers (no component NaN), with
`M = GenerateGate("X", n, k, -1)`, `matrixMultiply(matrixMultiply(a, M), M) = a`;
equivalently two successive `applyGate("X", k, -1)` calls on an unmeasured register
restore it. -/
theorem C14_x_self_inverse (n k : Nat) (a : List Complex128) (hn : 1 ≤ n) (hk : k < n)
    (hlen : a.length = 2 ^ n) (hfin : ∀ z ∈ a, z.notNaN = true) :
    ∃ (M : Matrix) (a' : List Complex128),
      GenerateGate "X" (n : Int) (k : Int) (-1) = .ok M ∧
      matrixMultiply a M = .ok a' ∧ matrixMultiply a' M = .ok a ∧
      ∀ qr : QuantumRegister, qr.numQubits = (n : Int) → qr.value = "" → qr.amplitudes = a →
        applyGate "X" (k : Int) (-1) qr = (.ok (), { qr with amplitudes := a' }) ∧
        applyGate "X" (k : Int) (-1) { qr with amplitudes := a' } = (.ok (), qr) := by
  obtain ⟨m, rfl⟩ : ∃ m, n = m + 1 := ⟨n - 1, by omega⟩
  have hM := generateGate_X m k (-1) (by omega)
  have h1 := matrixMultiply_xOperator a m (m - k) (by omega) hlen hfin
  have hfin' : ∀ z ∈ (List.range (2 ^ (m + 1))).map (fun i => a.getD (i ^^^ 2 ^ (m - k)) 0),
      z.notNaN = true := by
    intro z hz
    obtain ⟨i, _, rfl⟩ := List.mem_map.mp hz
    exact getD_notNaN a hfin _
  have h2 := matrixMultiply_xOperator _ m (m - k) (by omega) (by simp) hfin'
  rw [xOperator_twice a m (m - k) (by omega) hlen] at h2
  refine ⟨_, _, hM, h1, h2, ?_⟩
  intro qr hq hv ha
  subst ha
  constructor
  · unfold applyGate
    simp only [hv, ne_eq, not_true_eq_false, if_false, hq, hM, h1]
  · unfold applyGate
    simp only [hv, ne_eq, not_true_eq_false, if_false, hq, hM, h2]
    cases qr
    simp_all

/-- Witness of C14: two qubits, X on qubit 1, amplitudes (1/√2, 0, 0, i) -/
theorem C14_x_self_inverse_witness :
    ∃ (M : Matrix) (a' : List Complex128),
      GenerateGate "X" 2 1 (-1) = .ok M ∧
      matrixMultiply [⟨invSqrtTwo, 0⟩, 0, 0, ⟨0, 1⟩] M = .ok a' ∧
      matrixMultiply a' M = .ok [⟨invSqrtTwo, 0⟩, 0, 0, ⟨0, 1⟩] ∧
      ∀ qr : QuantumRegister, qr.numQubits = 2 → qr.value = "" →
        qr.amplitudes = [⟨invSqrtTwo, 0⟩, 0, 0, ⟨0, 1⟩] →
        applyGate "X" 1 (-1) qr = (.ok (), { qr with amplitudes := a' }) ∧
        applyGate "X" 1 (-1) { qr with amplitudes := a' } = (.ok (), qr) :=
  C14_x_self_inverse 2 1 [⟨invSqrtTwo, 0⟩, 0, 0, ⟨0, 1⟩] (by decide) (by decide) rfl
    (by decide)

/-- C15: for `n ≥ 1` qubits and `k < n`, `applyGate("X", k, -1)` on the fresh register that
`NewQuantumRegister(n)` returns yields the amplitude vector with 1 at index `2^(n-1-k)` and
0 everywhere else; for `n = 2`, `k = 0` the 1 is at index 2, the state |10⟩. -/
theorem C15_x_on_fresh_register (n k : Nat) (r0 : QuantumRegister) (hn : 1 ≤ n) (hk : k < n)
    (h0 : NewQuantumRegister (n : Int) = .ok r0) :
    applyGate "X" (k : Int) (-1) r0 =
      (.ok (), { r0 with amplitudes :=
        (List.range (2 ^ n)).map fun i => if i = 2 ^ (n - 1 - k) then 1 else 0 }) ∧
    2 ^ (n - 1 - k) < 2 ^ n ∧
    (NewQuantumRegister 2 = .ok ⟨2, [1, 0, 0, 0], "", []⟩ ∧
      applyGate "X" 0 (-1) ⟨2, [1, 0, 0, 0], "", []⟩ = (.ok (), ⟨2, [0, 0, 1, 0], "", []⟩)) := by
  obtain ⟨m, rfl⟩ : ∃ m, n = m + 1 := ⟨n - 1, by omega⟩
  obtain ⟨_, rfl⟩ := newQuantumRegister_ok (m + 1) r0 h0
  refine ⟨?_, Nat.pow_lt_pow_right (by decide) (by omega), by decide!⟩
  rw [applyGate_fresh "X" m k (-1) (by omega) (by decide), get_X]
  congr 2
  apply List.map_congr_left
  intro i _
  have hpos : 0 < 2 ^ (m - k) := Nat.two_pow_pos _
  simp only [Nat.add_sub_cancel]
  by_cases h1 : i = 0
  · have : ¬ (i = 2 ^ (m - k)) := by omega
    rw [if_pos h1, if_neg this]; rfl
  · rw [if_neg h1]
    by_cases h2 : i = 2 ^ (m - k)
    · rw [if_pos h2, if_pos h2]; rfl
    · rw [if_neg h2, if_neg h2]

/-- Witness of C15: three qubits, X on qubit 1, amplitude 1 at index 2 -/
theorem C15_x_on_fresh_register_witness :
    NewQuantumRegister 3 = .ok ⟨3, [1, 0, 0, 0, 0, 0, 0, 0], "", []⟩ ∧
    applyGate "X" 1 (-1) ⟨3, [1, 0, 0, 0, 0, 0, 0, 0], "", []⟩ =
      (.ok (), ⟨3, [0, 0, 1, 0, 0, 0, 0, 0], "", []⟩) :=
  have h : NewQuantumRegister 3 = .ok ⟨3, [1, 0, 0, 0, 0, 0, 0, 0], "", []⟩ := by decide!
  ⟨h, (C15_x_on_fresh_register 3 1 _ (by decide) (by decide) h).1.trans (by decide)⟩

/-- C16: for `n ≥ 1` qubits and `k < n`, `applyGate("H", k, -1)` on the fresh register that
`NewQuantumRegister(n)` returns yields, in exact arithmetic, amplitude `1/√2` at index 0
and at index `2^(n-1-k)` and amplitude 0 at every other index, so the squared magnitudes
that `measure` then computes as probabilities are exactly `1/2` at those two indices and
0 at all others. -/
theorem C16_h_on_fresh_register (n k : Nat) (r0 : QuantumRegister) (rng : RandSource)
    (hn : 1 ≤ n) (hk : k < n) (h0 : NewQuantumRegister (n : Int) = .ok r0) :
    applyGate "H" (k : Int) (-1) r0 =
      (.ok (), { r0 with amplitudes := (List.range (2 ^ n)).map fun i =>
        if i = 0 ∨ i = 2 ^ (n - 1 - k) then ⟨invSqrtTwo, 0⟩ else 0 }) ∧
    (measure rng (applyGate "H" (k : Int) (-1) r0).2).2.probabilities =
      (List.range (2 ^ n)).map (fun i =>
        if i = 0 ∨ i = 2 ^ (n - 1 - k) then F64.fin ⟨1 / 2, 0⟩ else 0) ∧
    (0 ≠ 2 ^ (n - 1 - k) ∧ 2 ^ (n - 1 - k) < 2 ^ n) := by
  obtain ⟨m, rfl⟩ : ∃ m, n = m + 1 := ⟨n - 1, by omega⟩
  obtain ⟨_, rfl⟩ := newQuantumRegister_ok (m + 1) r0 h0
  have hpos : 0 < 2 ^ (m - k) := Nat.two_pow_pos _
  have happ : applyGate "H" (k : Int) (-1)
      ⟨((m + 1 : Nat) : Int), 1 :: List.replicate (2 ^ (m + 1) - 1) 0, "", []⟩ =
      (.ok (), ⟨((m + 1 : Nat) : Int), (List.range (2 ^ (m + 1))).map fun i =>
        if i = 0 ∨ i = 2 ^ (m - k) then ⟨invSqrtTwo, 0⟩ else 0, "", []⟩) := by
    rw [applyGate_fresh "H" m k (-1) (by omega) (by decide)]
    congr 2
    apply List.map_congr_left
    intro i _
    by_cases h1 : i = 0
    · rw [if_pos h1, if_pos (Or.inl h1)]; decide!
    · rw [if_neg h1]
      by_cases h2 : i = 2 ^ (m - k)
      · rw [if_pos h2, if_pos (Or.inr h2)]; decide!
      · rw [if_neg h2, if_neg (by rintro (h | h) <;> contradiction)]
  simp only [Nat.add_sub_cancel]
  refine ⟨happ, ?_, by omega, Nat.pow_lt_pow_right (by decide) (by omega)⟩
  rw [happ, measure_unmeasured rng _ (m + 1) (by omega) rfl rfl (by simp)]
  simp only [List.map_map]
  apply List.map_congr_left
  intro i _
  simp only [Function.comp]
  split
  · decide!
  · decide!

/-- Witness of C16: two qubits, H on qubit 0 -/
theorem C16_h_on_fresh_register_witness :
    NewQuantumRegister 2 = .ok ⟨2, [1, 0, 0, 0], "", []⟩ ∧
    applyGate "H" 0 (-1) ⟨2, [1, 0, 0, 0], "", []⟩ =
      (.ok (), ⟨2, [⟨invSqrtTwo, 0⟩, 0, ⟨invSqrtTwo, 0⟩, 0], "", []⟩) ∧
    (measure lastIndexSource (applyGate "H" 0 (-1) ⟨2, [1, 0, 0, 0], "", []⟩).2).2.probabilities =
      [F64.fin ⟨1 / 2, 0⟩, 0, F64.fin ⟨1 / 2, 0⟩, 0] :=
  have h : NewQuantumRegister 2 = .ok ⟨2, [1, 0, 0, 0], "", []⟩ := by decide!
  have w := C16_h_on_fresh_register 2 0 _ lastIndexSource (by decide) (by decide) h
  ⟨h, w.1.trans (by decide!), w.2.1.trans (by decide!)⟩

/-- C20: for `n ≥ 1` qubits and qubit indices inside the register, the matrix `M` that
`GenerateGate` returns is symmetric for every catalogued name other than Y (CNOT with
control ≠ target included), so the row-vector product `Σ_j a[j]·M[j][i]` that `applyGate`
stores equals the column-vector product `Σ_j M[i][j]·a[j]`; for Y the matrix is
antisymmetric, so `applyGate("Y", k, -1)` stores the negation of the column-vector
product. -/
theorem C20_row_versus_column (n : Nat) (qr : QuantumRegister) (hn : 1 ≤ n)
    (hq : qr.numQubits = (n : Int)) (hv : qr.value = "")
    (hlen : qr.amplitudes.length = 2 ^ n) :
    (∀ gate ∈ singleQubitNames, gate ≠ "Y" → ∀ (k : Nat) (qubit2 : Int), k < n →
      ∃ M : Matrix, GenerateGate gate (n : Int) (k : Int) qubit2 = .ok M ∧
        SymmetricOn M (2 ^ n) ∧
        applyGate gate (k : Int) qubit2 qr =
          (.ok (), { qr with amplitudes := rowProduct qr.amplitudes M (2 ^ n) }) ∧
        rowProduct qr.amplitudes M (2 ^ n) = columnProduct M qr.amplitudes (2 ^ n)) ∧
    (∀ c t : Nat, c < n → t < n → c ≠ t →
      ∃ M : Matrix, GenerateGate "CNOT" (n : Int) (c : Int) (t : Int) = .ok M ∧
        SymmetricOn M (2 ^ n) ∧
        applyGate "CNOT" (c : Int) (t : Int) qr =
          (.ok (), { qr with amplitudes := rowProduct qr.amplitudes M (2 ^ n) }) ∧
        rowProduct qr.amplitudes M (2 ^ n) = columnProduct M qr.amplitudes (2 ^ n)) ∧
    (∀ (k : Nat) (qubit2 : Int), k < n →
      ∃ M : Matrix, GenerateGate "Y" (n : Int) (k : Int) qubit2 = .ok M ∧
        AntisymmetricOn M (2 ^ n) ∧
        applyGate "Y" (k : Int) qubit2 qr =
          (.ok (), { qr with amplitudes := rowProduct qr.amplitudes M (2 ^ n) }) ∧
        rowProduct qr.amplitudes M (2 ^ n) =
          (columnProduct M qr.amplitudes (2 ^ n)).map fun z => -z) := by
  obtain ⟨m, rfl⟩ : ∃ m, n = m + 1 := ⟨n - 1, by omega⟩
  refine ⟨?_, ?_, ?_⟩
  · intro gate hg hY k qubit2 hk
    have h := isGate2_of_mem gate hg
    have hM := generateGate_single gate m k qubit2 (by omega) h.1 h.2
    have hs := symmetricOn_single gate (m + 1) k hg hY
    exact ⟨_, hM, hs,
      applyGate_rowProduct gate _ _ qr _ _ hv (by rw [hq]; exact hM) (by omega),
      rowProduct_symmetric _ _ _ hs⟩
  · intro c t hc ht hct
    have hM := generateGate_cnot m c t (by omega) (by omega) hct
    have hs := symmetricOn_cnot (m + 1) c t hc ht hct
    exact ⟨_, hM, hs,
      applyGate_rowProduct "CNOT" _ _ qr _ _ hv (by rw [hq]; exact hM) (by omega),
      rowProduct_symmetric _ _ _ hs⟩
  · intro k qubit2 hk
    have h := isGate2_of_mem "Y" (by decide)
    have hM := generateGate_single "Y" m k qubit2 (by omega) h.1 h.2
    have hs := antisymmetricOn_Y (m + 1) k
    exact ⟨_, hM, hs,
      applyGate_rowProduct "Y" _ _ qr _ _ hv (by rw [hq]; exact hM) (by omega),
      rowProduct_antisymmetric _ _ _ hs⟩

/-- Witness of C20: one qubit in the state (1/√2, i), gates H and Y -/
theorem C20_row_versus_column_witness :
    (∃ M : Matrix, GenerateGate "H" 1 0 (-1) = .ok M ∧ SymmetricOn M (2 ^ 1) ∧
      applyGate "H" 0 (-1) ⟨1, [⟨invSqrtTwo, 0⟩, ⟨0, 1⟩], "", []⟩ =
        (.ok (), ⟨1, rowProduct [⟨invSqrtTwo, 0⟩, ⟨0, 1⟩] M (2 ^ 1), "", []⟩) ∧
      rowProduct [⟨invSqrtTwo, 0⟩, ⟨0, 1⟩] M (2 ^ 1) =
        columnProduct M [⟨invSqrtTwo, 0⟩, ⟨0, 1⟩] (2 ^ 1)) ∧
    (∃ M : Matrix, GenerateGate "Y" 1 0 (-1) = .ok M ∧ AntisymmetricOn M (2 ^ 1) ∧
      applyGate "Y" 0 (-1) ⟨1, [⟨invSqrtTwo, 0⟩, ⟨0, 1⟩], "", []⟩ =
        (.ok (), ⟨1, rowProduct [⟨invSqrtTwo, 0⟩, ⟨0, 1⟩] M (2 ^ 1), "", []⟩) ∧
      rowProduct [⟨invSqrtTwo, 0⟩, ⟨0, 1⟩] M (2 ^ 1) =
        (columnProduct M [⟨invSqrtTwo, 0⟩, ⟨0, 1⟩] (2 ^ 1)).map fun z => -z) :=
  have w := C20_row_versus_column 1 ⟨1, [⟨invSqrtTwo, 0⟩, ⟨0, 1⟩], "", []⟩ (by decide) rfl rfl rfl
  ⟨w.1 "H" (by decide) (by decide) 0 (-1) (by decide), w.2.2 0 (-1) (by decide)⟩

/-- C19: normalisation is an invariant of the register. For `n ≥ 1` and the register that
`NewQuantumRegister(n)` returns, every finite sequence of `applyGate` calls with catalogued
gate names and qubit indices in `[0, n)` (control ≠ target for CNOT) returns normally and
leaves an unmeasured `n`-qubit register whose amplitude vector has length `2^n`, holds no
NaN, and has squared magnitudes that sum to exactly 1 in exact arithmetic; and every
matrix `M` that `GenerateGate` returns for such arguments is `2^n × 2^n` and unitary,
`M · M† = I`. -/
theorem C19_normalisation_invariant (n : Nat) (r0 : QuantumRegister)
    (calls : List (String × Int × Int)) (hn : 1 ≤ n)
    (h0 : NewQuantumRegister (n : Int) = .ok r0)
    (hcalls : ∀ c ∈ calls, ValidCall n c) :
    (∃ r, applyGates calls r0 = (.ok (), r) ∧ r.numQubits = (n : Int) ∧ r.value = "" ∧
      r.amplitudes.length = 2 ^ n ∧ (∀ z ∈ r.amplitudes, z.notNaN = true) ∧
      (r.amplitudes.map Complex128.absSq).sum = 1) ∧
    ∀ c, ValidCall n c →
      ∃ M, GenerateGate c.1 (n : Int) c.2.1 c.2.2 = .ok M ∧ IsSquare M (2 ^ n) ∧
        matMul M (conjTranspose M) = identityMatrix (2 ^ n) := by
  obtain ⟨m, rfl⟩ : ∃ m, n = m + 1 := ⟨n - 1, by omega⟩
  obtain ⟨_, rfl⟩ := newQuantumRegister_ok (m + 1) r0 h0
  constructor
  · obtain ⟨v, hv, hnorm⟩ := applyGates_valid m calls hcalls
      ⟨((m + 1 : Nat) : Int), 1 :: List.replicate (2 ^ (m + 1) - 1) 0, "", []⟩
      (fun i => if i = 0 then 1 else 0) rfl rfl (fresh_amplitudes (m + 1)) (fresh_norm (m + 1))
    refine ⟨_, hv, rfl, rfl, ?_, ?_, ?_⟩
    · simp
    · intro z hz
      simp only [List.mem_map] at hz
      obtain ⟨i, _, rfl⟩ := hz
      exact Cx.toC_notNaN _
    · exact absSq_sum_of_norm _ v hnorm
  · intro c hc
    obtain ⟨F, hF, hM⟩ := generateGate_valid m c hc
    exact ⟨_, hM, isSquare_toMat _ _, matMul_conjTranspose_unitary _ F hF⟩

/-- Witness of C19: two qubits, H on qubit 0 and then CNOT from qubit 0 to qubit 1 -/
theorem C19_normalisation_invariant_witness :
    NewQuantumRegister ((2 : Nat) : Int) = .ok ⟨2, [1, 0, 0, 0], "", []⟩ ∧
    (∀ c ∈ [("H", (0 : Int), (-1 : Int)), ("CNOT", 0, 1)], ValidCall 2 c) ∧
    ((∃ r, applyGates [("H", 0, -1), ("CNOT", 0, 1)] ⟨2, [1, 0, 0, 0], "", []⟩ = (.ok (), r) ∧
      r.numQubits = ((2 : Nat) : Int) ∧ r.value = "" ∧
      r.amplitudes.length = 2 ^ 2 ∧ (∀ z ∈ r.amplitudes, z.notNaN = true) ∧
      (r.amplitudes.map Complex128.absSq).sum = 1) ∧
    ∀ c, ValidCall 2 c →
      ∃ M, GenerateGate c.1 ((2 : Nat) : Int) c.2.1 c.2.2 = .ok M ∧ IsSquare M (2 ^ 2) ∧
        matMul M (conjTranspose M) = identityMatrix (2 ^ 2)) :=
  have h : NewQuantumRegister ((2 : Nat) : Int) = .ok ⟨2, [1, 0, 0, 0], "", []⟩ := by decide!
  have hc : ∀ c ∈ [("H", (0 : Int), (-1 : Int)), ("CNOT", 0, 1)], ValidCall 2 c := by decide
  ⟨h, hc, C19_normalisation_invariant 2 _ _ (by decide) h hc⟩

end AUQS
